import Mathlib

/-!
Verification of the inline-dropdown editor core of the promptlayer-copy
browser extension (source: `src/unnamed/part_003`).

Strings are modelled as `List Char`.  The JavaScript regex
`/\[\[([^\]]+)\]\]/g` is embedded as `tryMatch` (match attempt at the head
of the string) and `findToken` (leftmost match, the behaviour of
`RegExp.exec` scanning from `lastIndex`).  Fresh segment ids
(`generateSegmentId`, a random string in the source) are modelled as a
`Nat` counter threaded through every function that creates segments; no
verified operation ever inspects a generated id.
-/

namespace PromptEditor

abbrev Str := List Char

/-- JS `String.prototype.trim` whitespace class, restricted to the ASCII
whitespace characters that can occur in this code path. -/
def isWsChar (c : Char) : Bool :=
  c = ' ' || c = '\t' || c = '\n' || c = '\r'

def trimLeft : Str → Str
  | [] => []
  | c :: cs => if isWsChar c then trimLeft cs else c :: cs

/-- JS `s.trim()`. -/
def trim (s : Str) : Str :=
  trimLeft ((trimLeft s.reverse).reverse)

def notRB (c : Char) : Bool := c ≠ ']'

/-- Attempt to match the regex `\[\[([^\]]+)\]\]` at the start of the
string: two `[`, a non-empty run of non-`]` characters (greedy — the JS
engine cannot backtrack into a shorter run here because the character
after the run would then have to be both `]` and non-`]`), then `]]`.
Returns the captured inner content and the remainder after the match. -/
def tryMatch (s : Str) : Option (Str × Str) :=
  match s with
  | a :: b :: rest =>
    if a = '[' ∧ b = '[' then
      match rest.dropWhile notRB with
      | x :: y :: after =>
        if x = ']' ∧ y = ']' ∧ rest.takeWhile notRB ≠ [] then
          some (rest.takeWhile notRB, after)
        else none
      | _ => none
    else none
  | _ => none

/-- Leftmost match of `\[\[([^\]]+)\]\]` in the string, as produced by
`regex.exec`: returns `(before, inner, after)` where `before` is the text
preceding the match. -/
def findToken : Str → Option (Str × Str × Str)
  | [] => none
  | c :: cs =>
    match tryMatch (c :: cs) with
    | some (inner, after) => some ([], inner, after)
    | none =>
      match findToken cs with
      | some (before, inner, after) => some (c :: before, inner, after)
      | none => none

theorem takeWhile_notRB_append {r : Str} (inner : Str)
    (hnb : ∀ c ∈ inner, c ≠ ']') :
    (inner ++ ']' :: r).takeWhile notRB = inner := by
  induction inner with
  | nil => simp [List.takeWhile, notRB]
  | cons c cs ih =>
    have hc : notRB c = true := by
      simp [notRB, hnb c (List.mem_cons_self c cs)]
    simp only [List.cons_append, List.takeWhile_cons, hc, if_true]
    rw [ih (fun x hx => hnb x (List.mem_cons_of_mem c hx))]

theorem dropWhile_notRB_append {r : Str} (inner : Str)
    (hnb : ∀ c ∈ inner, c ≠ ']') :
    (inner ++ ']' :: r).dropWhile notRB = ']' :: r := by
  induction inner with
  | nil => simp [List.dropWhile, notRB]
  | cons c cs ih =>
    have hc : notRB c = true := by
      simp [notRB, hnb c (List.mem_cons_self c cs)]
    simp only [List.cons_append, List.dropWhile_cons, hc, if_true]
    exact ih (fun x hx => hnb x (List.mem_cons_of_mem c hx))

theorem tryMatch_of_shape (inner after : Str)
    (hne : inner ≠ []) (hnb : ∀ c ∈ inner, c ≠ ']') :
    tryMatch ('[' :: '[' :: (inner ++ ']' :: ']' :: after)) = some (inner, after) := by
  have hdw := dropWhile_notRB_append (r := ']' :: after) inner hnb
  have htw := takeWhile_notRB_append (r := ']' :: after) inner hnb
  simp only [tryMatch, hdw, htw]
  simp [hne]

theorem tryMatch_eq_some {s inner after : Str}
    (h : tryMatch s = some (inner, after)) :
    s = '[' :: '[' :: (inner ++ ']' :: ']' :: after) ∧
      inner ≠ [] ∧ ∀ c ∈ inner, c ≠ ']' := by
  unfold tryMatch at h
  split at h
  case _ a b rest =>
    split at h
    case isTrue hab =>
      split at h
      case _ x y after' heq =>
        split at h
        case isTrue hcond =>
          simp only [Option.some.injEq, Prod.mk.injEq] at h
          obtain ⟨hi, ha⟩ := h
          obtain ⟨hx, hy, hne⟩ := hcond
          obtain ⟨ha', hb'⟩ := hab
          subst hx hy ha' hb' hi ha
          constructor
          · have hsplit := List.takeWhile_append_dropWhile (p := notRB) (l := rest)
            rw [heq] at hsplit
            simpa using hsplit.symm
          · refine ⟨hne, ?_⟩
            intro c hc
            have := List.mem_takeWhile_imp hc
            simpa [notRB] using this
        case isFalse => exact absurd h (by simp)
      case _ => exact absurd h (by simp)
    case isFalse => exact absurd h (by simp)
  case _ => exact absurd h (by simp)

theorem findToken_eq_some {s before inner after : Str}
    (h : findToken s = some (before, inner, after)) :
    s = before ++ '[' :: '[' :: (inner ++ ']' :: ']' :: after) ∧
      inner ≠ [] ∧ (∀ c ∈ inner, c ≠ ']') := by
  induction s generalizing before with
  | nil => simp [findToken] at h
  | cons c cs ih =>
    simp only [findToken] at h
    rcases htm : tryMatch (c :: cs) with _ | ⟨i, a⟩
    · rw [htm] at h
      rcases hft : findToken cs with _ | ⟨⟨b', i', a'⟩⟩
      · rw [hft] at h; simp at h
      · rw [hft] at h
        simp only [Option.some.injEq, Prod.mk.injEq] at h
        obtain ⟨hb, hi, ha⟩ := h
        subst hi ha
        obtain ⟨hshape, hne, hnb⟩ := ih hft
        refine ⟨?_, hne, hnb⟩
        rw [← hb]
        simp [hshape]
    · rw [htm] at h
      simp only [Option.some.injEq, Prod.mk.injEq] at h
      obtain ⟨hb, hi, ha⟩ := h
      subst hi ha
      obtain ⟨hshape, hne, hnb⟩ := tryMatch_eq_some htm
      rw [← hb]
      exact ⟨by simpa using hshape, hne, hnb⟩

/-- Leftmostness: any suffix of `s` starting strictly before the match
found by `findToken` fails `tryMatch`.  Such a suffix is exactly one
whose length exceeds the matched-token-plus-tail length. -/
theorem findToken_leftmost {s before inner after : Str}
    (h : findToken s = some (before, inner, after)) :
    ∀ p q : Str, s = p ++ q → inner.length + after.length + 4 < q.length →
      tryMatch q = none := by
  induction s generalizing before with
  | nil => simp [findToken] at h
  | cons c cs ih =>
    simp only [findToken] at h
    rcases htm : tryMatch (c :: cs) with _ | ⟨i, a⟩
    · rw [htm] at h
      rcases hft : findToken cs with _ | ⟨⟨b', i', a'⟩⟩
      · rw [hft] at h; simp at h
      · rw [hft] at h
        simp only [Option.some.injEq, Prod.mk.injEq] at h
        obtain ⟨hb, hi, ha⟩ := h
        subst hi ha
        intro p q hpq hlen
        rcases p with _ | ⟨p0, ptl⟩
        · simp only [List.nil_append] at hpq
          rw [hpq] at htm
          exact htm
        · simp only [List.cons_append, List.cons.injEq] at hpq
          exact ih hft ptl q hpq.2 hlen
    · rw [htm] at h
      simp only [Option.some.injEq, Prod.mk.injEq] at h
      obtain ⟨hb, hi, ha⟩ := h
      intro p q hpq hlen
      obtain ⟨hshape, -, -⟩ := tryMatch_eq_some htm
      have hslen : (c :: cs).length = inner.length + after.length + 4 := by
        rw [hshape, hi, ha]; simp; omega
      have hqle : q.length ≤ (c :: cs).length := by
        rw [hpq]; simp
      omega

/-- `findToken = none` means no match attempt at any suffix succeeds. -/
theorem findToken_none {s : Str} (h : findToken s = none) :
    ∀ p q : Str, s = p ++ q → tryMatch q = none := by
  induction s with
  | nil =>
    intro p q hpq
    have : q = [] := (List.append_eq_nil.mp hpq.symm).2
    simp [this, tryMatch]
  | cons c cs ih =>
    simp only [findToken] at h
    rcases htm : tryMatch (c :: cs) with _ | ⟨i, a⟩
    · rw [htm] at h
      rcases hft : findToken cs with _ | ⟨⟨b', i', a'⟩⟩
      · intro p q hpq
        rcases p with _ | ⟨p0, ptl⟩
        · simp only [List.nil_append] at hpq
          rw [hpq] at htm
          exact htm
        · simp only [List.cons_append, List.cons.injEq] at hpq
          exact ih hft ptl q hpq.2
      · rw [hft] at h; simp at h
    · rw [htm] at h; simp at h

theorem findToken_some_length {s before inner after : Str}
    (h : findToken s = some (before, inner, after)) :
    after.length + 5 ≤ s.length := by
  obtain ⟨hshape, hne, -⟩ := findToken_eq_some h
  have h1 : 1 ≤ inner.length := by
    cases inner with
    | nil => exact absurd rfl hne
    | cons _ _ => simp
  rw [hshape]
  simp only [List.length_append, List.length_cons]
  omega

/-! ## Option cleaning (the two variants used by the source) -/

/-- JS `String.prototype.split('|')`. -/
def splitPipe : Str → List Str
  | [] => [[]]
  | c :: rest =>
    if c = '|' then [] :: splitPipe rest
    else
      match splitPipe rest with
      | [] => [[c]]
      | p :: ps => (c :: p) :: ps

/-- `option.replace(/^'|'$/g, '')` from `detectAndCreateDropdowns` /
`parseDropdownOptions`: removes one leading and one trailing single
quote, each independently if present (a lone `'` is consumed by the
leading alternative only). -/
def stripSingleQuotes (s : Str) : Str :=
  let t := if s.head? = some '\'' then s.tail else s
  if t.getLast? = some '\'' then t.dropLast else t

/-- The quote-stripping step of `parseDropdownOptionsRobust`: one layer of
surrounding quotes is removed when the option both starts and ends with
the same quote character, single or double (`option.slice(1, -1)`). -/
def stripMatchingQuotes (s : Str) : Str :=
  if (s.head? = some '"' ∧ s.getLast? = some '"') ∨
      (s.head? = some '\'' ∧ s.getLast? = some '\'') then
    (s.drop 1).dropLast
  else s

/-- `option.replace(/[\[\]]/g, '')`. -/
def removeBrackets (s : Str) : Str :=
  s.filter (fun c => !(c = '[' || c = ']'))

/-- The per-option loop body of `parseDropdownOptionsRobust`: trim, strip
one layer of matching quotes, skip if empty, remove brackets and re-trim,
keep if still non-empty. -/
def cleanOptions : List Str → List Str
  | [] => []
  | raw :: rest =>
    let o1 := stripMatchingQuotes (trim raw)
    if o1 = [] then cleanOptions rest
    else
      let o2 := trim (removeBrackets o1)
      if o2 = [] then cleanOptions rest else o2 :: cleanOptions rest

/-- `parseDropdownOptionsRobust(fullMatch, innerContent)` (the `fullMatch`
argument is unused by the source body).  The trailing
`cleanOptions.length > 0 ? cleanOptions : []` of the source is the
identity and is kept implicitly. -/
def parseDropdownOptionsRobust (innerContent : Str) : List Str :=
  if innerContent = [] ∨ trim innerContent = [] then []
  else cleanOptions (splitPipe innerContent)

/-- The option parsing inside `detectAndCreateDropdowns`: split the
trimmed body on `|`, trim each piece and strip single quotes only
(`option.trim().replace(/^'|'$/g, '')`), drop empties. -/
def detectTokenOptions (optionsText : Str) : List Str :=
  ((splitPipe optionsText).map (fun o => stripSingleQuotes (trim o))).filter
    (fun o => o ≠ [])

/-- The `'custom...'` sentinel option. -/
def customSentinel : Str := "custom...".toList

/-- Append `'custom...'` if not already present (both parsers do this). -/
def withCustom (opts : List Str) : List Str :=
  if customSentinel ∈ opts then opts else opts ++ [customSentinel]

/-! ## Segment model -/

/-- `Segment = TextSegment | DropdownSegment`.  The UI-only optional
`isCustomMode` flag of `DropdownSegment` is never read by any of the
operations verified here and is omitted. -/
inductive Segment where
  | text (id : Nat) (value : Str)
  | dropdown (id : Nat) (options : List Str) (selected : Str)
deriving DecidableEq

def Segment.id : Segment → Nat
  | .text i _ => i
  | .dropdown i _ _ => i

def Segment.isText : Segment → Bool
  | .text _ _ => true
  | .dropdown _ _ _ => false

def Segment.isDropdown : Segment → Bool
  | .text _ _ => false
  | .dropdown _ _ _ => true

structure SegmentPosition where
  segmentIndex : Nat
  offsetInSegment : Nat
deriving DecidableEq

/-- `EditorSelection { start, end }`; the source field `end` is a Lean
keyword and is called `stop` here. -/
structure EditorSelection where
  start : SegmentPosition
  stop : SegmentPosition
deriving DecidableEq

/-- `EditorState`.  `scrollPosition` and `highlightedChip` are UI-only
and never read by the verified operations; they are omitted. -/
structure EditorState where
  segments : List Segment
  selection : EditorSelection
deriving DecidableEq

def collapsedAt (p : SegmentPosition) : EditorSelection := ⟨p, p⟩

/-! ## Codec: flat text ↔ segments -/

/-- `parseTextToSegments`, the boundary parser.  The `while(exec)` loop is
embedded as recursion on the remainder after each leftmost match, driven
by a fuel argument so the definition stays structurally recursive
(kernel-computable); each match consumes at least five characters
(`findToken_some_length`), so fuel `s.length` is always sufficient and
the fuel-exhaustion branch is unreachable from `parseTextToSegments`.
`fullMatch` for a failed token is `"[[" + inner + "]]"`.  The second
component threads the fresh-id counter. -/
def parseTextToSegmentsAux : Nat → Str → Nat → List Segment × Nat
  | 0, _, n => ([], n)
  | fuel + 1, s, n =>
    match findToken s with
    | some (before, inner, after) =>
      let pre : List Segment := if before = [] then [] else [.text n before]
      let n1 : Nat := if before = [] then n else n + 1
      let opts := parseDropdownOptionsRobust inner
      let tok : Segment :=
        match opts with
        | [] => .text n1 ('[' :: '[' :: (inner ++ [']', ']']))
        | o :: os => .dropdown n1 (withCustom (o :: os)) o
      let pr := parseTextToSegmentsAux fuel after (n1 + 1)
      (pre ++ tok :: pr.1, pr.2)
    | none => if s = [] then ([], n) else ([.text n s], n + 1)

def parseTextToSegments (s : Str) (n : Nat) : List Segment × Nat :=
  parseTextToSegmentsAux s.length s n

/-- `` `'${opt}'` `` in `segmentsToText`. -/
def quoteOpt (o : Str) : Str := '\'' :: (o ++ ['\''])

/-- `Array.prototype.join(' | ')`. -/
def joinPipeSep : List Str → Str
  | [] => []
  | [o] => o
  | o :: rest => o ++ ' ' :: '|' :: ' ' :: joinPipeSep rest

/-- `segmentsToText`: serialization.  Each dropdown is emitted with its
selected option first, the remaining options (all occurrences equal to
the selected one filtered out) after it, each single-quoted, joined by
`' | '`, wrapped in `[[ ]]`. -/
def segmentsToText : List Segment → Str
  | [] => []
  | .text _ v :: rest => v ++ segmentsToText rest
  | .dropdown _ opts sel :: rest =>
    ('[' :: '[' ::
      (joinPipeSep ((sel :: opts.filter (fun o => o ≠ sel)).map quoteOpt) ++ [']', ']']))
      ++ segmentsToText rest

/-- `segmentsToFlatText`: the flatten projection — each dropdown resolves
to its selected value. -/
def segmentsToFlatText : List Segment → Str
  | [] => []
  | .text _ v :: rest => v ++ segmentsToFlatText rest
  | .dropdown _ _ sel :: rest => sel ++ segmentsToFlatText rest

/-! ## Live pattern detector -/

/-- The match-processing loop of `detectAndCreateDropdowns` over one text
segment's value, producing the replacement pieces (fuel as in
`parseTextToSegmentsAux`; `s.length` always suffices). -/
def detectPiecesAux : Nat → Str → Nat → List Segment × Nat
  | 0, _, n => ([], n)
  | fuel + 1, s, n =>
    match findToken s with
    | some (before, inner, after) =>
      let pre : List Segment := if before = [] then [] else [.text n before]
      let n1 : Nat := if before = [] then n else n + 1
      let optionsText := trim inner
      let tok : Segment :=
        if optionsText = [] then .text n1 ('[' :: '[' :: (inner ++ [']', ']']))
        else
          match detectTokenOptions optionsText with
          | [] => .text n1 ('[' :: '[' :: (inner ++ [']', ']']))
          | o :: os => .dropdown n1 (withCustom (o :: os)) o
      let pr := detectPiecesAux fuel after (n1 + 1)
      (pre ++ tok :: pr.1, pr.2)
    | none => (if s = [] then [] else [.text n s], if s = [] then n else n + 1)

def detectPieces (s : Str) (n : Nat) : List Segment × Nat :=
  detectPiecesAux s.length s n

/-- `detectAndCreateDropdowns`.  The "CRITICAL FIX" of the source checks
whether the accumulated output ends in a dropdown after processing a
pattern-bearing text segment and, if so, appends an empty text segment;
since the pieces of such a segment are non-empty, the check is local to
them. -/
def detectAndCreateDropdowns (segs : List Segment) (n : Nat) :
    List Segment × Bool × Nat :=
  match segs with
  | [] => ([], false, n)
  | seg :: rest =>
    match seg with
    | .dropdown _ _ _ =>
      let pr := detectAndCreateDropdowns rest n
      (seg :: pr.1, pr.2.1, pr.2.2)
    | .text _ v =>
      match findToken v with
      | none =>
        let pr := detectAndCreateDropdowns rest n
        (seg :: pr.1, pr.2.1, pr.2.2)
      | some _ =>
        let pc := detectPieces v n
        let fixed : List Segment × Nat :=
          match pc.1.getLast? with
          | some (.dropdown _ _ _) => (pc.1 ++ [.text pc.2 []], pc.2 + 1)
          | _ => (pc.1, pc.2)
        let pr := detectAndCreateDropdowns rest fixed.2
        (fixed.1 ++ pr.1, true, pr.2.2)

/-! ## Edit engine -/

/-- Maximum cursor offset inside a segment: the value length for a text
segment, `0` for a dropdown. -/
def maxOffsetOf : Segment → Nat
  | .text _ v => v.length
  | .dropdown _ _ _ => 0

/-- `validateCursorPosition`: clamp the segment index to
`[0, length-1]` and the offset to `[0, maxOffset]`. -/
def validateCursorPosition (segments : List Segment)
    (position : SegmentPosition) : SegmentPosition :=
  if segments = [] then ⟨0, 0⟩
  else
    let clampedIndex := min position.segmentIndex (segments.length - 1)
    match segments[clampedIndex]? with
    | none => ⟨0, 0⟩
    | some seg => ⟨clampedIndex, min position.offsetInSegment (maxOffsetOf seg)⟩

/-- `handleInsertText` (the `INSERT_TEXT` dispatch handler): splice text
into the named text segment, silent no-op when the id is missing or the
segment is not text. -/
def handleInsertText (state : EditorState) (segmentId : Nat)
    (offsetInSegment : Nat) (text : Str) : EditorState :=
  match state.segments.findIdx? (fun s => s.id = segmentId) with
  | none => state
  | some segmentIndex =>
    match state.segments[segmentIndex]? with
    | some (.text i v) =>
      let newValue := v.take offsetInSegment ++ text ++ v.drop offsetInSegment
      { state with
        segments := state.segments.set segmentIndex (.text i newValue)
        selection := collapsedAt ⟨segmentIndex, offsetInSegment + text.length⟩ }
    | _ => state

/-- `handleChangeDropdown` (the `CHANGE_DROPDOWN` dispatch handler). -/
def handleChangeDropdown (state : EditorState) (segmentId : Nat)
    (newSelection : Str) : EditorState :=
  { state with
    segments := state.segments.map (fun seg =>
      match seg with
      | .dropdown i opts _ =>
        if i = segmentId then .dropdown i opts newSelection else seg
      | _ => seg) }

/-- `handleDeleteDropdown` (the `DELETE_DROPDOWN` dispatch handler). -/
def handleDeleteDropdown (state : EditorState) (segmentId : Nat) : EditorState :=
  { state with segments := state.segments.filter (fun seg => seg.id ≠ segmentId) }

/-- `handleAddCustomOption` (the `ADD_CUSTOM_OPTION` dispatch handler):
drop the sentinel, append the custom value if not already present,
re-append the sentinel, select the custom value. -/
def handleAddCustomOption (state : EditorState) (segmentId : Nat)
    (customValue : Str) : EditorState :=
  { state with
    segments := state.segments.map (fun seg =>
      match seg with
      | .dropdown i opts _ =>
        if i = segmentId then
          let existingOptions := opts.filter (fun o => o ≠ customSentinel)
          let optionsWithCustom :=
            if customValue ∈ existingOptions then existingOptions ++ [customSentinel]
            else existingOptions ++ [customValue, customSentinel]
          .dropdown i optionsWithCustom customValue
        else seg
      | _ => seg) }

/-- `handleBackspaceSafe`.  The cursor is `state.selection.start` (the
source derives `cursorPosition` from the collapsed selection); paths
that reach the end of the source function without calling
`setEditorState` return the state unchanged. -/
def handleBackspaceSafe (state : EditorState) : EditorState :=
  let segments := state.segments
  let vp := validateCursorPosition segments state.selection.start
  if vp.offsetInSegment > 0 then
    -- Case 1: delete the character before the cursor inside a text segment
    match segments[vp.segmentIndex]? with
    | some (.text i v) =>
      let newValue := v.take (vp.offsetInSegment - 1) ++ v.drop vp.offsetInSegment
      if newValue = [] then
        let newSegments := segments.eraseIdx vp.segmentIndex
        let newCursor : SegmentPosition :=
          if vp.segmentIndex > 0 then
            match newSegments[vp.segmentIndex - 1]? with
            | some (.text _ pv) => ⟨vp.segmentIndex - 1, pv.length⟩
            | _ =>
              if vp.segmentIndex < newSegments.length then ⟨vp.segmentIndex, 0⟩
              else ⟨vp.segmentIndex - 1, 0⟩
          else ⟨0, 0⟩
        { state with segments := newSegments, selection := collapsedAt newCursor }
      else
        { state with
          segments := segments.set vp.segmentIndex (.text i newValue)
          selection := collapsedAt ⟨vp.segmentIndex, vp.offsetInSegment - 1⟩ }
    | _ => state
  else
    -- Case 2: cursor at the beginning of a segment
    match segments[vp.segmentIndex]? with
    | some (.dropdown _ _ _) =>
      -- at the beginning of a dropdown: delete the dropdown itself
      let newSegments := segments.eraseIdx vp.segmentIndex
      let newCursor : SegmentPosition :=
        if vp.segmentIndex > 0 then
          match newSegments[vp.segmentIndex - 1]? with
          | some (.text _ pv) => ⟨vp.segmentIndex - 1, pv.length⟩
          | _ => ⟨vp.segmentIndex - 1, 0⟩
        else ⟨0, 0⟩
      { state with segments := newSegments, selection := collapsedAt newCursor }
    | _ =>
      if vp.segmentIndex = 0 then state
      else
        match segments[vp.segmentIndex - 1]? with
        | none => state
        | some (.dropdown _ _ _) =>
          -- previous sibling is a dropdown: delete it
          let newSegments := segments.eraseIdx (vp.segmentIndex - 1)
          let newCursor : SegmentPosition :=
            if vp.segmentIndex - 1 > 0 then
              match newSegments[vp.segmentIndex - 2]? with
              | some (.text _ bv) => ⟨vp.segmentIndex - 2, bv.length⟩
              | _ => ⟨vp.segmentIndex - 2, 0⟩
            else ⟨0, 0⟩
          { state with segments := newSegments, selection := collapsedAt newCursor }
        | some (.text pi pv) =>
          if pv.length = 0 then
            { state with
              segments := segments.eraseIdx (vp.segmentIndex - 1)
              selection := collapsedAt ⟨vp.segmentIndex - 1, 0⟩ }
          else
            let newValue := pv.dropLast
            if newValue = [] then
              { state with
                segments := segments.eraseIdx (vp.segmentIndex - 1)
                selection := collapsedAt ⟨vp.segmentIndex - 1, 0⟩ }
            else
              { state with
                segments := segments.set (vp.segmentIndex - 1) (.text pi newValue)
                selection := collapsedAt ⟨vp.segmentIndex - 1, newValue.length⟩ }

/-- `handleDelete` (forward delete).  At the end of a text segment whose
next sibling is a dropdown the dropdown is removed (selection untouched,
as in the source); inside a text segment the character after the cursor
is removed; on a dropdown segment the dropdown itself is removed. -/
def handleDelete (state : EditorState) : EditorState :=
  let segments := state.segments
  let vp := validateCursorPosition segments state.selection.start
  match segments[vp.segmentIndex]? with
  | none => state
  | some (.text i v) =>
    if vp.offsetInSegment ≥ v.length then
      if vp.segmentIndex < segments.length - 1 then
        match segments[vp.segmentIndex + 1]? with
        | some (.dropdown _ _ _) =>
          { state with segments := segments.eraseIdx (vp.segmentIndex + 1) }
        | _ => state
      else state
    else
      let newValue := v.take vp.offsetInSegment ++ v.drop (vp.offsetInSegment + 1)
      { state with segments := segments.set vp.segmentIndex (.text i newValue) }
  | some (.dropdown _ _ _) =>
    let newSegments := segments.eraseIdx vp.segmentIndex
    let newIndex := vp.segmentIndex - 1
    let newOffset : Nat :=
      match newSegments[newIndex]? with
      | some (.text _ nv) => nv.length
      | _ => 0
    { state with
      segments := newSegments
      selection := collapsedAt ⟨newIndex, newOffset⟩ }

/-- Index of the last dropdown segment (the backwards scan in
`handleInsertTextSafe`). -/
def lastDropdownIndex : List Segment → Option Nat
  | [] => none
  | seg :: rest =>
    match lastDropdownIndex rest with
    | some k => some (k + 1)
    | none => if seg.isDropdown then some 0 else none

/-- `handleInsertTextSafe`: insert text at the (validated) cursor, run
the live pattern detector, and re-anchor the caret: after the last
dropdown of the result when the detector reports changes, at the
length-adjusted pre-edit position otherwise. -/
def handleInsertTextSafe (state : EditorState) (text : Str) (n : Nat) :
    EditorState × Nat :=
  if text = [] then (state, n)
  else
    let segments := state.segments
    let vp := validateCursorPosition segments state.selection.start
    match segments[vp.segmentIndex]? with
    | none =>
      -- empty editor: create the first text segment
      let dr := detectAndCreateDropdowns [.text n text] (n + 1)
      let finalCursor : SegmentPosition :=
        if dr.2.1 then
          match lastDropdownIndex dr.1 with
          | some k => ⟨k + 1, 0⟩
          | none =>
            let lastSegmentIndex := dr.1.length - 1
            match dr.1[lastSegmentIndex]? with
            | some (.text _ lv) => ⟨lastSegmentIndex, lv.length⟩
            | _ => ⟨lastSegmentIndex, 0⟩
        else ⟨0, text.length⟩
      ({ state with segments := dr.1, selection := collapsedAt finalCursor }, dr.2.2)
    | some (.dropdown _ _ _) =>
      -- cursor on a dropdown: create a new text segment after it
      let newSegments := segments.insertIdx (vp.segmentIndex + 1) (.text n text)
      let dr := detectAndCreateDropdowns newSegments (n + 1)
      let finalCursor : SegmentPosition :=
        if dr.2.1 then
          match lastDropdownIndex dr.1 with
          | some k => ⟨k + 1, 0⟩
          | none => ⟨vp.segmentIndex + 1, text.length⟩
        else ⟨vp.segmentIndex + 1, text.length⟩
      ({ state with segments := dr.1, selection := collapsedAt finalCursor }, dr.2.2)
    | some (.text i v) =>
      -- insert into the current text segment
      let newValue := v.take vp.offsetInSegment ++ text ++ v.drop vp.offsetInSegment
      let newSegments := segments.set vp.segmentIndex (.text i newValue)
      let dr := detectAndCreateDropdowns newSegments n
      let finalCursor : SegmentPosition :=
        if dr.2.1 then
          match lastDropdownIndex dr.1 with
          | some k => ⟨k + 1, 0⟩
          | none =>
            let lastSegmentIndex := dr.1.length - 1
            match dr.1[lastSegmentIndex]? with
            | some (.text _ lv) => ⟨lastSegmentIndex, lv.length⟩
            | _ => ⟨lastSegmentIndex, 0⟩
        else ⟨vp.segmentIndex, vp.offsetInSegment + text.length⟩
      ({ state with segments := dr.1, selection := collapsedAt finalCursor }, dr.2.2)

/-! ## Specification-side notions -/

/-- Id-less view of a segment, for statements that quantify over parser
output (generated ids are arbitrary). -/
inductive SegData where
  | text (value : Str)
  | dropdown (options : List Str) (selected : Str)
deriving DecidableEq

def stripIds (segs : List Segment) : List SegData :=
  segs.map (fun s =>
    match s with
    | .text _ v => SegData.text v
    | .dropdown _ o sel => SegData.dropdown o sel)

/-- No two adjacent text segments (spec §3 invariant). -/
def noAdjacentTexts : List Segment → Bool
  | [] => true
  | [_] => true
  | a :: b :: rest => !(a.isText && b.isText) && noAdjacentTexts (b :: rest)

def countDropdowns (segs : List Segment) : Nat :=
  (segs.filter (fun s => s.isDropdown)).length

/-- Two option lists holding the same set of options. -/
def sameElems (a b : List Str) : Bool :=
  a.all (fun o => decide (o ∈ b)) && b.all (fun o => decide (o ∈ a))

/-- Normal form for selection-equivalence: the concatenated text run
before each dropdown together with that dropdown's data, plus the final
text run.  Ids are ignored. -/
def normAux (acc : Str) : List SegData → List (Str × (List Str × Str)) × Str
  | [] => ([], acc)
  | .text v :: rest => normAux (acc ++ v) rest
  | .dropdown opts sel :: rest =>
    let pr := normAux [] rest
    ((acc, (opts, sel)) :: pr.1, pr.2)

def runsEq : List (Str × (List Str × Str)) → List (Str × (List Str × Str)) → Bool
  | [], [] => true
  | a :: as, b :: bs =>
    a.1 == b.1 && sameElems a.2.1 b.2.1 && a.2.2 == b.2.2 && runsEq as bs
  | _, _ => false

/-- Selection equivalence: same text runs, and per corresponding
dropdown the same selected value and the same set of options. -/
def selEquiv (a b : List Segment) : Bool :=
  let na := normAux [] (stripIds a)
  let nb := normAux [] (stripIds b)
  na.2 == nb.2 && runsEq na.1 nb.1

/-- A well-formed option for round-tripping: non-empty, whitespace-trim
stable, and free of the token metacharacters. -/
def wellFormedOpt (o : Str) : Bool :=
  !o.isEmpty && trim o == o &&
    decide ('[' ∉ o) && decide (']' ∉ o) && decide ('|' ∉ o)

/-- Well-formed segments (the claim's "no malformed tokens"): text runs
contain no bracket characters (so serialization introduces exactly the
emitted tokens), dropdowns have at least one option, every option is
well formed, the selected value is an option, and the `'custom...'`
sentinel is present (spec §3: `options` always includes it). -/
def wellFormedSeg : Segment → Bool
  | .text _ v => decide ('[' ∉ v) && decide (']' ∉ v)
  | .dropdown _ opts sel =>
    !opts.isEmpty && opts.all wellFormedOpt && decide (sel ∈ opts) &&
      decide (customSentinel ∈ opts)

def wellFormedSegs (segs : List Segment) : Bool := segs.all wellFormedSeg

/-- Every `[[...]]` match in the string parses to at least one option
(no malformed token), recursively over the match remainder. -/
def tokensAllValidAux : Nat → Str → Bool
  | 0, _ => true
  | fuel + 1, s =>
    match findToken s with
    | none => true
    | some (_, inner, after) =>
      !(parseDropdownOptionsRobust inner).isEmpty && tokensAllValidAux fuel after

def tokensAllValid (s : Str) : Bool := tokensAllValidAux s.length s

/-! ## Fuel adequacy and step lemmas -/

theorem parseTextToSegmentsAux_fuel :
    ∀ fuel fuel' s n, s.length ≤ fuel → s.length ≤ fuel' →
      parseTextToSegmentsAux fuel s n = parseTextToSegmentsAux fuel' s n := by
  intro fuel
  induction fuel with
  | zero =>
    intro fuel' s n hf hf'
    have hs : s = [] := by
      cases s with
      | nil => rfl
      | cons _ _ => simp at hf
    subst hs
    cases fuel' with
    | zero => rfl
    | succ f' => simp [parseTextToSegmentsAux, findToken]
  | succ f ih =>
    intro fuel' s n hf hf'
    cases fuel' with
    | zero =>
      have hs : s = [] := by
        cases s with
        | nil => rfl
        | cons _ _ => simp at hf'
      subst hs
      simp [parseTextToSegmentsAux, findToken]
    | succ f' =>
      simp only [parseTextToSegmentsAux]
      rcases hft : findToken s with _ | ⟨⟨b, i, a⟩⟩
      · rfl
      · have hlen := findToken_some_length hft
        have ha : a.length ≤ f := by omega
        have ha' : a.length ≤ f' := by omega
        simp only [ih f' a _ ha ha']

theorem parseTextToSegments_none {s : Str} (h : findToken s = none) (n : Nat) :
    parseTextToSegments s n = if s = [] then ([], n) else ([.text n s], n + 1) := by
  cases s with
  | nil => simp [parseTextToSegments, parseTextToSegmentsAux]
  | cons c cs => simp [parseTextToSegments, parseTextToSegmentsAux, h]

theorem parseTextToSegments_some {s before inner after : Str}
    (h : findToken s = some (before, inner, after)) (n : Nat) :
    parseTextToSegments s n =
      ((if before = [] then [] else [.text n before]) ++
        (match parseDropdownOptionsRobust inner with
          | [] => Segment.text (if before = [] then n else n + 1)
              ('[' :: '[' :: (inner ++ [']', ']']))
          | o :: os => Segment.dropdown (if before = [] then n else n + 1)
              (withCustom (o :: os)) o) ::
          (parseTextToSegments after ((if before = [] then n else n + 1) + 1)).1,
        (parseTextToSegments after ((if before = [] then n else n + 1) + 1)).2) := by
  have hlen := findToken_some_length h
  have hs : s.length = (s.length - 1) + 1 := by omega
  unfold parseTextToSegments
  rw [hs]
  simp only [parseTextToSegmentsAux, h]
  have ha : after.length ≤ s.length - 1 := by omega
  rw [parseTextToSegmentsAux_fuel (s.length - 1) after.length after _ ha (le_refl _)]

theorem detectPiecesAux_fuel :
    ∀ fuel fuel' s n, s.length ≤ fuel → s.length ≤ fuel' →
      detectPiecesAux fuel s n = detectPiecesAux fuel' s n := by
  intro fuel
  induction fuel with
  | zero =>
    intro fuel' s n hf hf'
    have hs : s = [] := by
      cases s with
      | nil => rfl
      | cons _ _ => simp at hf
    subst hs
    cases fuel' with
    | zero => rfl
    | succ f' => simp [detectPiecesAux, findToken]
  | succ f ih =>
    intro fuel' s n hf hf'
    cases fuel' with
    | zero =>
      have hs : s = [] := by
        cases s with
        | nil => rfl
        | cons _ _ => simp at hf'
      subst hs
      simp [detectPiecesAux, findToken]
    | succ f' =>
      simp only [detectPiecesAux]
      rcases hft : findToken s with _ | ⟨⟨b, i, a⟩⟩
      · rfl
      · have hlen := findToken_some_length hft
        have ha : a.length ≤ f := by omega
        have ha' : a.length ≤ f' := by omega
        simp only [ih f' a _ ha ha']

theorem tokensAllValidAux_fuel :
    ∀ fuel fuel' s, s.length ≤ fuel → s.length ≤ fuel' →
      tokensAllValidAux fuel s = tokensAllValidAux fuel' s := by
  intro fuel
  induction fuel with
  | zero =>
    intro fuel' s hf hf'
    have hs : s = [] := by
      cases s with
      | nil => rfl
      | cons _ _ => simp at hf
    subst hs
    cases fuel' with
    | zero => rfl
    | succ f' => simp [tokensAllValidAux, findToken]
  | succ f ih =>
    intro fuel' s hf hf'
    cases fuel' with
    | zero =>
      have hs : s = [] := by
        cases s with
        | nil => rfl
        | cons _ _ => simp at hf'
      subst hs
      simp [tokensAllValidAux, findToken]
    | succ f' =>
      simp only [tokensAllValidAux]
      rcases hft : findToken s with _ | ⟨⟨b, i, a⟩⟩
      · rfl
      · have hlen := findToken_some_length hft
        have ha : a.length ≤ f := by omega
        have ha' : a.length ≤ f' := by omega
        simp only [ih f' a ha ha']

theorem tokensAllValid_some {s before inner after : Str}
    (h : findToken s = some (before, inner, after)) :
    tokensAllValid s =
      (!(parseDropdownOptionsRobust inner).isEmpty && tokensAllValid after) := by
  have hlen := findToken_some_length h
  have hs : s.length = (s.length - 1) + 1 := by omega
  unfold tokensAllValid
  rw [hs]
  simp only [tokensAllValidAux, h]
  have ha : after.length ≤ s.length - 1 := by omega
  rw [tokensAllValidAux_fuel (s.length - 1) after.length after ha (le_refl _)]

/-! ## Generic lemmas about the handlers -/

theorem validate_self {segments : List Segment} {pos : SegmentPosition}
    {seg : Segment} (hseg : segments[pos.segmentIndex]? = some seg)
    (hoff : pos.offsetInSegment ≤ maxOffsetOf seg) :
    validateCursorPosition segments pos = pos := by
  have hlt : pos.segmentIndex < segments.length := by
    rcases List.getElem?_eq_some.mp hseg with ⟨h, -⟩
    exact h
  have hne : segments ≠ [] := by
    intro h
    subst h
    simp at hlt
  unfold validateCursorPosition
  rw [if_neg hne]
  have hmin : min pos.segmentIndex (segments.length - 1) = pos.segmentIndex := by
    omega
  simp only [hmin, hseg]
  obtain ⟨pi, po⟩ := pos
  simp only [SegmentPosition.mk.injEq, true_and]
  simp only at hoff
  omega

/-! ## C5: backspace after a dropdown deletes it -/

/-- **C5.**  With the caret at offset 0 of a text segment whose previous
sibling is a dropdown, `handleBackspaceSafe` removes exactly that
dropdown segment (`eraseIdx` of its index), leaving every other segment
untouched. -/
theorem backspace_at_start_deletes_preceding_dropdown
    (state : EditorState) (i : Nat) (v : Str) (j : Nat) (opts : List Str) (sel : Str)
    (hseg : state.segments[state.selection.start.segmentIndex]? = some (.text i v))
    (hoff : state.selection.start.offsetInSegment = 0)
    (hpos : 0 < state.selection.start.segmentIndex)
    (hprev : state.segments[state.selection.start.segmentIndex - 1]? =
      some (.dropdown j opts sel)) :
    (handleBackspaceSafe state).segments =
      state.segments.eraseIdx (state.selection.start.segmentIndex - 1) := by
  have hv : validateCursorPosition state.segments state.selection.start =
      state.selection.start :=
    validate_self hseg (by omega)
  unfold handleBackspaceSafe
  simp only [hv, hoff, hseg, hprev, Nat.lt_irrefl, if_false, gt_iff_lt]
  rw [if_neg (by omega : ¬ state.selection.start.segmentIndex = 0)]

theorem backspace_at_start_deletes_preceding_dropdown_witness :
    ∃ st : EditorState,
      (handleBackspaceSafe st).segments = st.segments.eraseIdx 0 := by
  refine ⟨⟨[.dropdown 7 [['x'], customSentinel] ['x'], .text 8 ['b']],
    collapsedAt ⟨1, 0⟩⟩, ?_⟩
  exact backspace_at_start_deletes_preceding_dropdown _ 8 ['b'] 7
    [['x'], customSentinel] ['x'] (by decide) (by decide) (by decide) (by decide)

/-! ## C6: forward delete before a dropdown deletes it -/

/-- **C6.**  With the caret at the end of a text segment whose next
sibling is a dropdown, `handleDelete` removes exactly that dropdown
segment, leaving every other segment's content unchanged. -/
theorem forward_delete_at_end_deletes_next_dropdown
    (state : EditorState) (i : Nat) (v : Str) (j : Nat) (opts : List Str) (sel : Str)
    (hseg : state.segments[state.selection.start.segmentIndex]? = some (.text i v))
    (hoff : state.selection.start.offsetInSegment = v.length)
    (hnext : state.segments[state.selection.start.segmentIndex + 1]? =
      some (.dropdown j opts sel)) :
    (handleDelete state).segments =
      state.segments.eraseIdx (state.selection.start.segmentIndex + 1) := by
  have hv : validateCursorPosition state.segments state.selection.start =
      state.selection.start :=
    validate_self hseg (by simp [maxOffsetOf, hoff])
  have hlt : state.selection.start.segmentIndex + 1 < state.segments.length := by
    rcases List.getElem?_eq_some.mp hnext with ⟨h, -⟩
    exact h
  unfold handleDelete
  simp only [hv, hseg, hnext, hoff, ge_iff_le, le_refl, if_true]
  rw [if_pos (by omega : state.selection.start.segmentIndex <
    state.segments.length - 1)]

theorem forward_delete_at_end_deletes_next_dropdown_witness :
    ∃ st : EditorState,
      (handleDelete st).segments = st.segments.eraseIdx 1 := by
  refine ⟨⟨[.text 4 ['a'], .dropdown 5 [['x'], customSentinel] ['x']],
    collapsedAt ⟨0, 1⟩⟩, ?_⟩
  exact forward_delete_at_end_deletes_next_dropdown _ 4 ['a'] 5
    [['x'], customSentinel] ['x'] (by decide) (by decide) (by decide)

/-! ## C8: AddCustomOption then ChangeDropdown is idempotent -/

/-- **C8.**  `AddCustomOption(id, v)` followed by `ChangeDropdown(id, v)`
is the same state as `AddCustomOption(id, v)` alone: the second action
changes nothing. -/
theorem addCustomOption_then_changeDropdown_idempotent
    (state : EditorState) (segmentId : Nat) (v : Str) :
    handleChangeDropdown (handleAddCustomOption state segmentId v) segmentId v =
      handleAddCustomOption state segmentId v := by
  unfold handleChangeDropdown handleAddCustomOption
  obtain ⟨segs, sel⟩ := state
  simp only [List.map_map]
  congr 1
  apply List.map_congr_left
  intro a _
  cases a with
  | text i w => rfl
  | dropdown i opts s =>
    by_cases hid : i = segmentId
    · simp [hid]
    · simp [hid]

/-! ## C9: InsertText on a missing or non-text segment is a no-op -/

/-- **C9.**  `handleInsertText` returns the state unchanged when the
segment id resolves to no segment, or to a dropdown segment. -/
theorem insertText_missing_or_nontext_noop
    (state : EditorState) (segmentId : Nat) (offsetInSegment : Nat) (text : Str)
    (h : state.segments.findIdx? (fun s => s.id = segmentId) = none ∨
      ∃ k j opts sel, state.segments.findIdx? (fun s => s.id = segmentId) = some k ∧
        state.segments[k]? = some (.dropdown j opts sel)) :
    handleInsertText state segmentId offsetInSegment text = state := by
  unfold handleInsertText
  rcases h with h | ⟨k, j, opts, sel, hk, hseg⟩
  · simp only [h]
  · simp only [hk, hseg]

theorem insertText_missing_or_nontext_noop_witness :
    handleInsertText ⟨[.text 0 ['a']], collapsedAt ⟨0, 0⟩⟩ 5 0 ['z'] =
      ⟨[.text 0 ['a']], collapsedAt ⟨0, 0⟩⟩ :=
  insertText_missing_or_nontext_noop _ 5 0 ['z'] (Or.inl (by decide))

/-! ## C10: no trailing empty text segment from the boundary parser -/

/-- **C10.**  The flat-string boundary parser leaves a final dropdown as
the last segment (no trailing empty text segment), while the live
pattern detector synthesizes a trailing empty text segment after the
same content. -/
theorem parse_no_trailing_text_after_final_dropdown :
    (parseTextToSegments "Pick [[a|b]]".toList 0).1 =
      [.text 0 "Pick ".toList,
       .dropdown 1 ["a".toList, "b".toList, customSentinel] "a".toList] ∧
    (detectAndCreateDropdowns [.text 0 "Pick [[a|b]]".toList] 1).1 =
      [.text 1 "Pick ".toList,
       .dropdown 2 ["a".toList, "b".toList, customSentinel] "a".toList,
       .text 3 []] := by
  decide

/-! ## C7: quote stripping in the live detector vs the boundary parser -/

/-- **Refutation of C7 as stated.**  The live pattern detector does not
strip double quotes: a token `[["buy"]]` becomes a dropdown whose
selected value still carries the quotes, not `buy`. -/
theorem detect_double_quote_counterexample :
    (detectAndCreateDropdowns
        [.text 0 ['[', '[', '"', 'b', 'u', 'y', '"', ']', ']']] 1).1 =
      [.dropdown 1 [['"', 'b', 'u', 'y', '"'], customSentinel]
        ['"', 'b', 'u', 'y', '"'],
       .text 2 []] ∧
    (['"', 'b', 'u', 'y', '"'] : Str) ≠ ['b', 'u', 'y'] := by
  decide

/-- **C7 amended.**  The live detector strips only single quotes
(`[['buy']]` yields option `buy`, `[["buy"]]` keeps the double quotes),
while the boundary parser `parseTextToSegments` /
`parseDropdownOptionsRobust` strips both quote styles. -/
theorem detect_strips_single_quotes_only :
    (detectAndCreateDropdowns
        [.text 0 ['[', '[', '\'', 'b', 'u', 'y', '\'', ']', ']']] 1).1 =
      [.dropdown 1 [['b', 'u', 'y'], customSentinel] ['b', 'u', 'y'], .text 2 []] ∧
    (parseTextToSegments ['[', '[', '"', 'b', 'u', 'y', '"', ']', ']'] 0).1 =
      [.dropdown 0 [['b', 'u', 'y'], customSentinel] ['b', 'u', 'y']] ∧
    (parseTextToSegments ['[', '[', '\'', 'b', 'u', 'y', '\'', ']', ']'] 0).1 =
      [.dropdown 0 [['b', 'u', 'y'], customSentinel] ['b', 'u', 'y']] := by
  decide

/-! ## C3: adjacency of text segments -/

/-- **Refutation of C3 as stated.**  Deleting the dropdown between two
text segments via `handleDeleteDropdown` returns a state with two
adjacent text segments — nothing merges them. -/
theorem deleteDropdown_creates_adjacent_texts :
    noAdjacentTexts
      ([.text 0 ['a'], .dropdown 1 [['x'], customSentinel] ['x'], .text 2 ['b']] :
        List Segment) = true ∧
    noAdjacentTexts
      (handleDeleteDropdown
        ⟨[.text 0 ['a'], .dropdown 1 [['x'], customSentinel] ['x'], .text 2 ['b']],
          collapsedAt ⟨0, 0⟩⟩ 1).segments = false := by
  decide

theorem noAdj_cons₂ (a b : Segment) (r : List Segment) :
    noAdjacentTexts (a :: b :: r) =
      (!(a.isText && b.isText) && noAdjacentTexts (b :: r)) := rfl

theorem noAdj_tail {a : Segment} {l : List Segment}
    (h : noAdjacentTexts (a :: l) = true) : noAdjacentTexts l = true := by
  cases l with
  | nil => rfl
  | cons b rest =>
    rw [noAdj_cons₂, Bool.and_eq_true] at h
    exact h.2

theorem noAdj_cons_congr {x y : Segment} (hxy : x.isText = y.isText)
    {rest : List Segment} (h : noAdjacentTexts (y :: rest) = true) :
    noAdjacentTexts (x :: rest) = true := by
  cases rest with
  | nil => rfl
  | cons b r =>
    rw [noAdj_cons₂] at h ⊢
    rw [hxy]
    exact h

/-- Overwriting a text segment with another text segment cannot create a
new adjacency. -/
theorem noAdj_set_text {l : List Segment} {idx : Nat} {j i' : Nat} {w v' : Str}
    (hl : l[idx]? = some (.text j w)) (h : noAdjacentTexts l = true) :
    noAdjacentTexts (l.set idx (.text i' v')) = true := by
  induction l generalizing idx with
  | nil => simp at hl
  | cons a rest ih =>
    cases idx with
    | zero =>
      simp only [List.getElem?_cons_zero, Option.some.injEq] at hl
      subst hl
      exact noAdj_cons_congr (by rfl) h
    | succ k =>
      simp only [List.getElem?_cons_succ] at hl
      cases rest with
      | nil => simp at hl
      | cons b rest' =>
        cases k with
        | zero =>
          simp only [List.getElem?_cons_zero, Option.some.injEq] at hl
          subst hl
          rw [noAdj_cons₂, Bool.and_eq_true] at h
          rw [show (a :: Segment.text j w :: rest').set 1 (.text i' v') =
              a :: Segment.text i' v' :: rest' from rfl]
          rw [noAdj_cons₂, Bool.and_eq_true]
          exact ⟨h.1, noAdj_cons_congr (by rfl) h.2⟩
        | succ k' =>
          rw [noAdj_cons₂, Bool.and_eq_true] at h
          rw [show (a :: b :: rest').set (k' + 2) (.text i' v') =
              a :: b :: rest'.set k' (.text i' v') from rfl]
          rw [noAdj_cons₂, Bool.and_eq_true]
          exact ⟨h.1, ih hl h.2⟩

/-- Removing a text segment cannot create a new adjacency: under the
invariant its two neighbours are never both text. -/
theorem noAdj_erase_text {l : List Segment} {idx j : Nat} {w : Str}
    (hl : l[idx]? = some (.text j w)) (h : noAdjacentTexts l = true) :
    noAdjacentTexts (l.eraseIdx idx) = true := by
  induction l generalizing idx with
  | nil => simp at hl
  | cons a rest ih =>
    cases idx with
    | zero =>
      simpa [List.eraseIdx] using noAdj_tail h
    | succ k =>
      simp only [List.getElem?_cons_succ] at hl
      cases rest with
      | nil => simp at hl
      | cons b rest' =>
        cases k with
        | zero =>
          simp only [List.getElem?_cons_zero, Option.some.injEq] at hl
          subst hl
          rw [noAdj_cons₂, Bool.and_eq_true] at h
          have hna : a.isText = false := by
            rcases h with ⟨h1, -⟩
            cases hx : a.isText with
            | false => rfl
            | true => rw [hx] at h1; simp [Segment.isText] at h1
          rw [show (a :: Segment.text j w :: rest').eraseIdx 1 = a :: rest' from rfl]
          cases rest' with
          | nil => rfl
          | cons c rest'' =>
            rw [noAdj_cons₂, Bool.and_eq_true]
            exact ⟨by simp [hna], noAdj_tail h.2⟩
        | succ k' =>
          rw [noAdj_cons₂, Bool.and_eq_true] at h
          rw [show (a :: b :: rest').eraseIdx (k' + 2) =
              a :: b :: rest'.eraseIdx k' from rfl]
          rw [noAdj_cons₂, Bool.and_eq_true]
          exact ⟨h.1, ih hl h.2⟩

/-- The validated cursor has a positive offset only inside a text
segment. -/
theorem validate_offset_pos {segs : List Segment} {pos : SegmentPosition}
    (h : 0 < (validateCursorPosition segs pos).offsetInSegment) :
    ∃ i v, segs[(validateCursorPosition segs pos).segmentIndex]? =
      some (.text i v) := by
  by_cases hne : segs = []
  · rw [validateCursorPosition, if_pos hne] at h
    simp at h
  · rw [validateCursorPosition, if_neg hne] at h ⊢
    simp only at h ⊢
    rcases hl : segs[min pos.segmentIndex (segs.length - 1)]? with _ | seg
    · rw [hl] at h
      simp at h
    · rw [hl] at h ⊢
      cases seg with
      | text i v => exact ⟨i, v, by simp [hl]⟩
      | dropdown _ _ _ => simp [maxOffsetOf] at h

/-- **C3 amended.**  Character-level backspace (validated offset > 0)
preserves the no-adjacent-text-segments invariant: it only rewrites or
removes a text segment whose neighbours, under the invariant, are not
both text. -/
theorem backspace_midtext_preserves_noAdjacentTexts
    (state : EditorState)
    (hadj : noAdjacentTexts state.segments = true)
    (hoff : 0 <
      (validateCursorPosition state.segments state.selection.start).offsetInSegment) :
    noAdjacentTexts (handleBackspaceSafe state).segments = true := by
  obtain ⟨i, v, hseg⟩ := validate_offset_pos hoff
  unfold handleBackspaceSafe
  rw [if_pos hoff]
  simp only [hseg]
  by_cases hnv :
      v.take ((validateCursorPosition state.segments state.selection.start).offsetInSegment - 1)
        ++ v.drop (validateCursorPosition state.segments state.selection.start).offsetInSegment
      = []
  · rw [if_pos hnv]
    exact noAdj_erase_text hseg hadj
  · rw [if_neg hnv]
    exact noAdj_set_text hseg hadj

theorem backspace_midtext_preserves_noAdjacentTexts_witness :
    noAdjacentTexts
      (handleBackspaceSafe ⟨[.text 0 ['a', 'b']], collapsedAt ⟨0, 1⟩⟩).segments
      = true :=
  backspace_midtext_preserves_noAdjacentTexts _ (by decide) (by decide)

/-! ## C4: caret re-anchoring after insertion -/

/-- **Refutation of C4 as stated.**  Inserting `[[  ]]` (a blank token
body) after `q` in a state that already holds one dropdown creates no
new dropdown (the dropdown count is unchanged), yet the caret does not
keep its length-adjusted pre-edit position `⟨1, 7⟩` — the detector
reported a match, so the caret jumps to offset 0 of the segment after
the last (pre-existing) dropdown. -/
theorem insert_caret_counterexample :
    countDropdowns
        (handleInsertTextSafe
          ⟨[.dropdown 0 [['a'], customSentinel] ['a'], .text 1 ['q']],
            collapsedAt ⟨1, 1⟩⟩ ['[', '[', ' ', ' ', ']', ']'] 2).1.segments =
      countDropdowns
        [Segment.dropdown 0 [['a'], customSentinel] ['a'], .text 1 ['q']] ∧
    (handleInsertTextSafe
        ⟨[.dropdown 0 [['a'], customSentinel] ['a'], .text 1 ['q']],
          collapsedAt ⟨1, 1⟩⟩ ['[', '[', ' ', ' ', ']', ']'] 2).1.selection.start =
      ⟨1, 0⟩ ∧
    (⟨1, 0⟩ : SegmentPosition) ≠ ⟨1, 7⟩ := by
  decide

/-- **C4 amended.**  For a text insertion into a text segment: whenever
the detection pass reports changes (`hasChanges`, i.e. any complete
`[[...]]` match, dropdown-creating or not), the caret moves to offset 0
of the segment following the last dropdown of the *resulting* list
(pre-existing or new); only when no match was found does the caret keep
its pre-edit, length-adjusted position. -/
theorem insert_caret_after_last_dropdown
    (state : EditorState) (text : Str) (n i : Nat) (v : Str)
    (htext : text ≠ [])
    (hseg : state.segments[(validateCursorPosition state.segments
        state.selection.start).segmentIndex]? = some (.text i v)) :
    let vp := validateCursorPosition state.segments state.selection.start
    let dr := detectAndCreateDropdowns
      (state.segments.set vp.segmentIndex
        (.text i (v.take vp.offsetInSegment ++ text ++ v.drop vp.offsetInSegment))) n
    (dr.2.1 = true → ∀ k, lastDropdownIndex dr.1 = some k →
        (handleInsertTextSafe state text n).1.selection.start = ⟨k + 1, 0⟩) ∧
    (dr.2.1 = false →
        (handleInsertTextSafe state text n).1.selection.start =
          ⟨vp.segmentIndex, vp.offsetInSegment + text.length⟩) := by
  intro vp dr
  unfold handleInsertTextSafe
  rw [if_neg htext]
  simp only [hseg]
  constructor
  · intro hch k hk
    simp only [show
      (validateCursorPosition state.segments state.selection.start) = vp from rfl,
      show detectAndCreateDropdowns
        (state.segments.set vp.segmentIndex
          (.text i (v.take vp.offsetInSegment ++ text ++ v.drop vp.offsetInSegment))) n
        = dr from rfl, hch, hk, if_true]
    rfl
  · intro hch
    simp only [show
      (validateCursorPosition state.segments state.selection.start) = vp from rfl,
      show detectAndCreateDropdowns
        (state.segments.set vp.segmentIndex
          (.text i (v.take vp.offsetInSegment ++ text ++ v.drop vp.offsetInSegment))) n
        = dr from rfl, hch, if_false]
    rfl

theorem insert_caret_after_last_dropdown_witness :
    (handleInsertTextSafe ⟨[.text 0 []], collapsedAt ⟨0, 0⟩⟩
        ['[', '[', 'a', ']', ']'] 5).1.selection.start = ⟨1, 0⟩ :=
  (insert_caret_after_last_dropdown ⟨[.text 0 []], collapsedAt ⟨0, 0⟩⟩
    ['[', '[', 'a', ']', ']'] 5 0 [] (by decide) (by decide)).1 (by decide) 0 (by decide)

/-! ## C2: token-freedom of the flattened parse -/

theorem mem_trimLeft {c : Char} : ∀ {s : Str}, c ∈ trimLeft s → c ∈ s := by
  intro s
  induction s with
  | nil => simp [trimLeft]
  | cons a as ih =>
    simp only [trimLeft]
    split
    · intro h
      exact List.mem_cons_of_mem a (ih h)
    · exact fun h => h

theorem mem_trim {c : Char} {s : Str} (h : c ∈ trim s) : c ∈ s := by
  unfold trim at h
  have h1 := mem_trimLeft h
  rw [List.mem_reverse] at h1
  have h2 := mem_trimLeft h1
  rw [List.mem_reverse] at h2
  exact h2

theorem mem_removeBrackets {c : Char} {s : Str} (h : c ∈ removeBrackets s) :
    c ≠ '[' ∧ c ≠ ']' := by
  unfold removeBrackets at h
  have := List.of_mem_filter h
  simp only [Bool.not_eq_true', Bool.or_eq_false_iff, decide_eq_false_iff_not] at this
  exact this

theorem mem_cleanOptions {o : Str} :
    ∀ {raws : List Str}, o ∈ cleanOptions raws →
      o ≠ [] ∧ ∀ c ∈ o, c ≠ '[' ∧ c ≠ ']' := by
  intro raws
  induction raws with
  | nil => simp [cleanOptions]
  | cons raw rest ih =>
    simp only [cleanOptions]
    split
    · exact ih
    · split
      · exact ih
      · intro h
        rcases List.mem_cons.mp h with h | h
        · subst h
          refine ⟨by assumption, ?_⟩
          intro c hc
          exact mem_removeBrackets (mem_trim hc)
        · exact ih h

theorem mem_robustOptions {o inner : Str}
    (h : o ∈ parseDropdownOptionsRobust inner) :
    o ≠ [] ∧ ∀ c ∈ o, c ≠ '[' ∧ c ≠ ']' := by
  unfold parseDropdownOptionsRobust at h
  split at h
  · simp at h
  · exact mem_cleanOptions h

/-- Splitting at the first `]` of a string is unique. -/
theorem firstRB_unique :
    ∀ (x1 : Str) {y1 x2 y2 : Str},
      x1 ++ ']' :: y1 = x2 ++ ']' :: y2 → (∀ c ∈ x1, c ≠ ']') →
      (∀ c ∈ x2, c ≠ ']') → x1 = x2 ∧ y1 = y2 := by
  intro x1
  induction x1 with
  | nil =>
    intro y1 x2 y2 heq h1 h2
    cases x2 with
    | nil => simpa using heq
    | cons d x2' =>
      simp only [List.nil_append, List.cons_append, List.cons.injEq] at heq
      exact absurd heq.1.symm (h2 d (List.mem_cons_self d x2'))
  | cons c x1' ih =>
    intro y1 x2 y2 heq h1 h2
    cases x2 with
    | nil =>
      simp only [List.cons_append, List.nil_append, List.cons.injEq] at heq
      exact absurd heq.1 (h1 c (List.mem_cons_self c x1'))
    | cons d x2' =>
      simp only [List.cons_append, List.cons.injEq] at heq
      obtain ⟨hcd, htl⟩ := heq
      obtain ⟨hx, hy⟩ := ih htl
        (fun e he => h1 e (List.mem_cons_of_mem c he))
        (fun e he => h2 e (List.mem_cons_of_mem d he))
      exact ⟨by rw [hcd, hx], hy⟩

theorem findToken_eq_none_of {s : Str}
    (h : ∀ p q : Str, s = p ++ q → tryMatch q = none) : findToken s = none := by
  rcases hft : findToken s with _ | ⟨⟨b, i, a⟩⟩
  · rfl
  · exfalso
    obtain ⟨hshape, hne, hnb⟩ := findToken_eq_some hft
    have := h b ('[' :: '[' :: (i ++ ']' :: ']' :: a)) hshape
    rw [tryMatch_of_shape i a hne hnb] at this
    simp at this

theorem segmentsToFlatText_append (x y : List Segment) :
    segmentsToFlatText (x ++ y) =
      segmentsToFlatText x ++ segmentsToFlatText y := by
  induction x with
  | nil => simp [segmentsToFlatText]
  | cons a x' ih =>
    cases a with
    | text i v => simp [segmentsToFlatText, ih]
    | dropdown i o sel => simp [segmentsToFlatText, ih]

theorem dropWhile_head_false {p : Char → Bool} :
    ∀ {l : Str} {d : Char} {t : Str}, l.dropWhile p = d :: t → p d = false := by
  intro l
  induction l with
  | nil => simp [List.dropWhile]
  | cons c cs ih =>
    intro d t h
    rw [List.dropWhile_cons] at h
    by_cases hpc : p c = true
    · rw [if_pos hpc] at h
      exact ih h
    · rw [if_neg hpc] at h
      simp only [List.cons.injEq] at h
      rw [← h.1]
      exact Bool.eq_false_iff.mpr hpc

/-- The crux of token-freedom: a gap before a found token, a
bracket-free non-empty selected value, and a token-free rest concatenate
to a token-free string. -/
theorem gap_sel_rest_token_free {s b i a : Str} {o F : Str}
    (hft : findToken s = some (b, i, a))
    (ho : o ≠ []) (hob : ∀ c ∈ o, c ≠ '[' ∧ c ≠ ']')
    (hF : findToken F = none) :
    findToken (b ++ o ++ F) = none := by
  obtain ⟨hshape, hine, hinb⟩ := findToken_eq_some hft
  apply findToken_eq_none_of
  intro p q hpq
  rcases htm : tryMatch q with _ | ⟨⟨w, r⟩⟩
  · rfl
  exfalso
  obtain ⟨hq, hwne, hwnb⟩ := tryMatch_eq_some htm
  rw [List.append_assoc] at hpq
  rcases List.append_eq_append_iff.mp hpq with ⟨x, hx1, hx2⟩ | ⟨u, hu1, hu2⟩
  · -- p extends beyond b: the match starts inside o or inside F
    rcases List.append_eq_append_iff.mp hx2 with ⟨y, hy1, hy2⟩ | ⟨z, hz1, hz2⟩
    · -- F = y ++ q: q is a suffix of F
      rw [findToken_none hF y q hy2] at htm
      simp at htm
    · -- o = x ++ z, q = z ++ F
      cases z with
      | nil =>
        -- q = F
        rw [hz2, List.nil_append, findToken_none hF [] F (by simp)] at htm
        simp at htm
      | cons z0 z' =>
        -- head of q is inside o, but it must be '['
        have hz0 : z0 ∈ o := by
          rw [hz1]
          exact List.mem_append_right x (List.mem_cons_self z0 z')
        rw [hz2] at hq
        simp only [List.cons_append, List.cons.injEq] at hq
        exact (hob z0 hz0).1 hq.1
  · -- b = p ++ u, q = u ++ o ++ F
    cases u with
    | nil =>
      -- q = o ++ F: head of q is in o, but it must be '['
      rw [hu2, List.nil_append] at hq
      cases o with
      | nil => exact ho rfl
      | cons o0 o' =>
        simp only [List.cons_append, List.cons.injEq] at hq
        exact (hob o0 (List.mem_cons_self o0 o')).1 hq.1
    | cons u0 u' =>
      -- the match starts strictly inside b
      rw [hu2] at hq
      simp only [List.cons_append, List.cons.injEq] at hq
      obtain ⟨hc0, hq'⟩ := hq
      cases u' with
      | nil =>
        -- second char of the match would be the head of o
        cases o with
        | nil => exact ho rfl
        | cons o0 o' =>
          simp only [List.nil_append, List.cons_append, List.cons.injEq] at hq'
          exact (hob o0 (List.mem_cons_self o0 o')).1 hq'.1
      | cons c1 u'' =>
        simp only [List.cons_append, List.cons.injEq] at hq'
        obtain ⟨hc1, hrest⟩ := hq'
        -- hrest : u'' ++ (o ++ F) = w ++ ']' :: ']' :: r
        -- leftmostness of the original match rules out any match here
        have hsdecomp : s = p ++
            ((u0 :: c1 :: u'') ++ '[' :: '[' :: (i ++ ']' :: ']' :: a)) := by
          rw [hshape, hu1, List.append_assoc]
        have hlen : i.length + a.length + 4 <
            ((u0 :: c1 :: u'') ++ '[' :: '[' :: (i ++ ']' :: ']' :: a)).length := by
          simp only [List.length_append, List.length_cons]
          omega
        have hnone := findToken_leftmost hft p _ hsdecomp hlen
        by_cases hmem : ']' ∈ u''
        · -- u'' contains a ']': the first one comes with a second ']'
          have hd := List.takeWhile_append_dropWhile (p := notRB) (l := u'')
          rcases hdw : u''.dropWhile notRB with _ | ⟨d, u2⟩
          · rw [List.dropWhile_eq_nil_iff] at hdw
            have := hdw ']' hmem
            simp [notRB] at this
          · have hdrb : d = ']' := by
              have := dropWhile_head_false hdw
              simpa [notRB] using this
            have htw_nb : ∀ c ∈ u''.takeWhile notRB, c ≠ ']' := by
              intro c hc
              have := List.mem_takeWhile_imp hc
              simpa [notRB] using this
            set tw := u''.takeWhile notRB with htwdef
            have hsplitu : u'' = tw ++ ']' :: u2 := by
              rw [htwdef]
              conv_lhs => rw [← hd]
              rw [hdw, hdrb]
            rw [hsplitu, List.append_assoc] at hrest
            simp only [List.cons_append] at hrest
            obtain ⟨htw, htail⟩ := firstRB_unique _ hrest htw_nb hwnb
            cases u2 with
            | nil =>
              simp only [List.nil_append] at htail
              cases o with
              | nil => exact ho rfl
              | cons o0 o' =>
                simp only [List.cons_append, List.cons.injEq] at htail
                exact (hob o0 (List.mem_cons_self o0 o')).2 htail.1
            | cons e u2' =>
              simp only [List.cons_append, List.cons.injEq] at htail
              obtain ⟨he, -⟩ := htail
              have hQ : (u0 :: c1 :: u'') ++ '[' :: '[' :: (i ++ ']' :: ']' :: a) =
                  '[' :: '[' :: (tw ++ ']' :: ']' ::
                    (u2' ++ '[' :: '[' :: (i ++ ']' :: ']' :: a))) := by
                rw [hc0, hc1, hsplitu, he]
                simp [List.append_assoc]
              rw [hQ] at hnone
              have htwne : tw ≠ [] := by
                rw [htw]
                exact hwne
              rw [tryMatch_of_shape _ _ htwne htw_nb] at hnone
              simp at hnone
        · -- u'' has no ']': the whole stretch up to the real token is non-']'
          have hQ : (u0 :: c1 :: u'') ++ '[' :: '[' :: (i ++ ']' :: ']' :: a) =
              '[' :: '[' :: ((u'' ++ '[' :: '[' :: i) ++ ']' :: ']' :: a) := by
            rw [hc0, hc1]
            simp [List.append_assoc]
          rw [hQ] at hnone
          have hinb' : ∀ c ∈ u'' ++ '[' :: '[' :: i, c ≠ ']' := by
            intro c hc
            rcases List.mem_append.mp hc with hc | hc
            · intro hcc
              rw [hcc] at hc
              exact hmem hc
            · rcases List.mem_cons.mp hc with hc | hc
              · simp [hc]
              · rcases List.mem_cons.mp hc with hc | hc
                · simp [hc]
                · exact hinb c hc
          rw [tryMatch_of_shape _ _ (by simp) hinb'] at hnone
          simp at hnone

theorem flatten_parse_token_free_aux :
    ∀ L s, s.length ≤ L → tokensAllValid s = true →
      ∀ n, findToken (segmentsToFlatText (parseTextToSegments s n).1) = none := by
  intro L
  induction L with
  | zero =>
    intro s hs _ n
    have hnil : s = [] := by
      cases s with
      | nil => rfl
      | cons _ _ => simp at hs
    subst hnil
    simp [parseTextToSegments, parseTextToSegmentsAux, segmentsToFlatText, findToken]
  | succ L ih =>
    intro s hs hval n
    rcases hft : findToken s with _ | ⟨⟨b, i, a⟩⟩
    · rw [parseTextToSegments_none hft]
      by_cases hnil : s = []
      · subst hnil
        simp [segmentsToFlatText, findToken]
      · rw [if_neg hnil]
        simp only [segmentsToFlatText, List.append_nil]
        exact hft
    · have hstep := tokensAllValid_some hft
      rw [hstep, Bool.and_eq_true] at hval
      obtain ⟨hne, hvala⟩ := hval
      rcases hro : parseDropdownOptionsRobust i with _ | ⟨o, os⟩
      · rw [hro] at hne
        simp at hne
      · rw [parseTextToSegments_some hft, hro]
        have hF : findToken (segmentsToFlatText
            (parseTextToSegments a ((if b = [] then n else n + 1) + 1)).1) = none := by
          apply ih a ?_ hvala
          have := findToken_some_length hft
          omega
        have hmem : o ∈ parseDropdownOptionsRobust i := by
          rw [hro]
          exact List.mem_cons_self o os
        have hoprops := mem_robustOptions hmem
        have hkey := gap_sel_rest_token_free hft hoprops.1 hoprops.2 hF
        rw [segmentsToFlatText_append]
        by_cases hb : b = []
        · rw [if_pos hb]
          rw [hb] at hkey
          simp only [segmentsToFlatText]
          simpa [hb] using hkey
        · rw [if_neg hb]
          simp only [segmentsToFlatText, List.append_nil]
          simpa [hb, List.append_assoc] using hkey

/-- **C2 amended.**  For every flat string all of whose `[[...]]` matches
parse to at least one option (no blank/malformed token bodies),
`segmentsToFlatText (parseTextToSegments s)` contains no `[[...]]` token.
A malformed token (e.g. a blank body) is kept verbatim as text and its
token syntax survives into the flattened output — see the
counterexample. -/
theorem flatten_parse_token_free (s : Str) (h : tokensAllValid s = true) (n : Nat) :
    findToken (segmentsToFlatText (parseTextToSegments s n).1) = none :=
  flatten_parse_token_free_aux s.length s (le_refl _) h n

theorem flatten_parse_token_free_witness :
    tokensAllValid "x[[a|b]]y".toList = true ∧
      findToken (segmentsToFlatText
        (parseTextToSegments "x[[a|b]]y".toList 0).1) = none :=
  ⟨by decide, flatten_parse_token_free _ (by decide) 0⟩

/-- **Refutation of C2 as stated.**  For the flat input `[[ ]]` (blank
token body) the parser keeps the raw matched text as a literal text
segment, so the flattened output still contains the token pattern. -/
theorem flatten_parse_counterexample :
    findToken (segmentsToFlatText (parseTextToSegments "[[ ]]".toList 0).1) ≠
      none := by
  decide


/-! ## C1: round-trip of serialization and parsing -/

theorem trimLeft_append_ws {w x : Str} (h : ∀ c ∈ w, isWsChar c = true) :
    trimLeft (w ++ x) = trimLeft x := by
  induction w with
  | nil => simp
  | cons c cs ih =>
    simp only [List.cons_append, trimLeft, h c (List.mem_cons_self c cs), if_true]
    exact ih (fun d hd => h d (List.mem_cons_of_mem c hd))

theorem trimLeft_cons_not_ws {c : Char} {x : Str} (h : isWsChar c = false) :
    trimLeft (c :: x) = c :: x := by
  simp [trimLeft, h]

theorem isWs_quote : isWsChar '\'' = false := by decide

/-- Trimming whitespace around a single-quoted option yields the quoted
option. -/
theorem trim_ws_quote {w1 w2 : Str} (o : Str)
    (h1 : ∀ c ∈ w1, isWsChar c = true) (h2 : ∀ c ∈ w2, isWsChar c = true) :
    trim (w1 ++ (quoteOpt o ++ w2)) = quoteOpt o := by
  unfold trim
  have hrev : (w1 ++ (quoteOpt o ++ w2)).reverse =
      w2.reverse ++ ('\'' :: ((o.reverse ++ ['\'']) ++ w1.reverse)) := by
    simp [quoteOpt, List.reverse_append]
  rw [hrev, trimLeft_append_ws
    (fun c hc => h2 c (by rwa [List.mem_reverse] at hc)),
    trimLeft_cons_not_ws isWs_quote]
  have hrev2 : ('\'' :: ((o.reverse ++ ['\'']) ++ w1.reverse)).reverse =
      w1 ++ ('\'' :: (o ++ ['\''])) := by
    simp
  rw [hrev2, trimLeft_append_ws h1, trimLeft_cons_not_ws isWs_quote]
  rfl

theorem splitPipe_ne_nil (x : Str) : splitPipe x ≠ [] := by
  cases x with
  | nil => simp [splitPipe]
  | cons c cs =>
    simp only [splitPipe]
    split
    · simp
    · split
      · simp
      · simp

theorem splitPipe_cons_ne {c : Char} (hc : ¬ c = '|') {z : Str} {p : Str}
    {ps : List Str} (h : splitPipe z = p :: ps) :
    splitPipe (c :: z) = (c :: p) :: ps := by
  simp only [splitPipe, if_neg hc, h]

theorem splitPipe_no_pipe {x : Str} (h : ∀ c ∈ x, c ≠ '|') :
    splitPipe x = [x] := by
  induction x with
  | nil => rfl
  | cons c cs ih =>
    have := splitPipe_cons_ne (h c (List.mem_cons_self c cs))
      (ih (fun d hd => h d (List.mem_cons_of_mem c hd)))
    simpa using this

theorem splitPipe_append_pipe {x y : Str} (h : ∀ c ∈ x, c ≠ '|') :
    splitPipe (x ++ '|' :: y) = x :: splitPipe y := by
  induction x with
  | nil =>
    rcases hy : splitPipe y with _ | ⟨p, ps⟩
    · exact absurd hy (splitPipe_ne_nil y)
    · simp [splitPipe, hy]
  | cons c cs ih =>
    have hrec := ih (fun d hd => h d (List.mem_cons_of_mem c hd))
    have := splitPipe_cons_ne (h c (List.mem_cons_self c cs)) hrec
    simpa using this

theorem quoteOpt_getLast (o : Str) : (quoteOpt o).getLast? = some '\'' := by
  rw [show quoteOpt o = ('\'' :: o) ++ ['\''] from by simp [quoteOpt]]
  exact List.getLast?_concat _

theorem stripMatchingQuotes_quoteOpt (o : Str) :
    stripMatchingQuotes (quoteOpt o) = o := by
  unfold stripMatchingQuotes
  rw [if_pos]
  · rw [show quoteOpt o = ('\'' :: o) ++ ['\''] from by simp [quoteOpt]]
    simp
  · refine Or.inr ⟨by simp [quoteOpt], quoteOpt_getLast o⟩

theorem removeBrackets_id {o : Str} (hl : '[' ∉ o) (hr : ']' ∉ o) :
    removeBrackets o = o := by
  unfold removeBrackets
  apply List.filter_eq_self.mpr
  intro c hc
  simp only [Bool.not_eq_true', Bool.or_eq_false_iff, decide_eq_false_iff_not]
  constructor
  · intro h; rw [h] at hc; exact hl hc
  · intro h; rw [h] at hc; exact hr hc

theorem wellFormedOpt_spec {o : Str} (h : wellFormedOpt o = true) :
    o ≠ [] ∧ trim o = o ∧ '[' ∉ o ∧ ']' ∉ o ∧ '|' ∉ o := by
  unfold wellFormedOpt at h
  simp only [Bool.and_eq_true, Bool.not_eq_true', decide_eq_true_eq,
    beq_iff_eq] at h
  obtain ⟨⟨⟨⟨h1, h2⟩, h3⟩, h4⟩, h5⟩ := h
  refine ⟨?_, h2, h3, h4, h5⟩
  intro hnil
  rw [hnil] at h1
  simp at h1

theorem trimLeft_eq_nil {y : Str} (h : trimLeft y = []) :
    ∀ c ∈ y, isWsChar c = true := by
  induction y with
  | nil => simp
  | cons c cs ih =>
    intro d hd
    simp only [trimLeft] at h
    by_cases hc : isWsChar c = true
    · rw [if_pos hc] at h
      rcases List.mem_cons.mp hd with hd | hd
      · rw [hd]; exact hc
      · exact ih h d hd
    · rw [if_neg hc] at h
      simp at h

theorem trimLeft_ws_closure {x : Str}
    (h : ∀ c ∈ trimLeft x, isWsChar c = true) : ∀ c ∈ x, isWsChar c = true := by
  induction x with
  | nil => simp
  | cons d t ih =>
    intro c hc
    simp only [trimLeft] at h
    by_cases hd : isWsChar d = true
    · rw [if_pos hd] at h
      rcases List.mem_cons.mp hc with hc | hc
      · rw [hc]; exact hd
      · exact ih h c hc
    · rw [if_neg hd] at h
      exact h c hc

theorem trim_eq_nil {s : Str} (h : trim s = []) : ∀ c ∈ s, isWsChar c = true := by
  unfold trim at h
  have h1 := trimLeft_eq_nil h
  have h2 : ∀ c ∈ trimLeft s.reverse, isWsChar c = true := by
    intro c hc
    exact h1 c (by rwa [List.mem_reverse])
  have h3 := trimLeft_ws_closure h2
  intro c hc
  exact h3 c (by rwa [List.mem_reverse])

/-- One `cleanOptions` step on a whitespace-padded quoted well-formed
option keeps exactly the option. -/
theorem cleanOptions_cons_quoted {w1 w2 : Str} {o : Str} {rest : List Str}
    (hw1 : ∀ c ∈ w1, isWsChar c = true) (hw2 : ∀ c ∈ w2, isWsChar c = true)
    (hwf : wellFormedOpt o = true) :
    cleanOptions ((w1 ++ (quoteOpt o ++ w2)) :: rest) = o :: cleanOptions rest := by
  obtain ⟨hne, htr, hnl, hnr, -⟩ := wellFormedOpt_spec hwf
  simp only [cleanOptions]
  rw [trim_ws_quote o hw1 hw2, stripMatchingQuotes_quoteOpt]
  rw [if_neg hne, removeBrackets_id hnl hnr, htr, if_neg hne]

theorem no_pipe_pre_quote {pre : Str} {o : Str}
    (hpp : ∀ c ∈ pre, c ≠ '|') (hwf : wellFormedOpt o = true) :
    ∀ c ∈ pre ++ quoteOpt o, c ≠ '|' := by
  intro c hc
  rcases List.mem_append.mp hc with hc | hc
  · exact hpp c hc
  · simp only [quoteOpt] at hc
    rcases List.mem_cons.mp hc with hc | hc
    · rw [hc]; decide
    · rcases List.mem_append.mp hc with hc | hc
      · intro heq
        rw [heq] at hc
        exact (wellFormedOpt_spec hwf).2.2.2.2 hc
      · simp only [List.mem_singleton] at hc
        rw [hc]; decide

/-- `cleanOptions ∘ splitPipe` recovers the serialized well-formed
options (with an all-whitespace pipe-free prefix tolerated, as produced
by the `' | '` separators). -/
theorem cleanOptions_split_serialized :
    ∀ (os : List Str) (pre o : Str),
      (∀ c ∈ pre, isWsChar c = true) → (∀ c ∈ pre, c ≠ '|') →
      wellFormedOpt o = true → (∀ x ∈ os, wellFormedOpt x = true) →
      cleanOptions (splitPipe (pre ++ joinPipeSep ((o :: os).map quoteOpt))) =
        o :: os := by
  intro os
  induction os with
  | nil =>
    intro pre o hpw hpp hwf _
    rw [show joinPipeSep ([o].map quoteOpt) = quoteOpt o from rfl]
    rw [splitPipe_no_pipe (no_pipe_pre_quote hpp hwf)]
    rw [show pre ++ quoteOpt o = pre ++ (quoteOpt o ++ []) from by simp]
    rw [cleanOptions_cons_quoted hpw (by simp) hwf]
    rfl
  | cons o2 os' ih =>
    intro pre o hpw hpp hwf hos
    rw [show joinPipeSep ((o :: o2 :: os').map quoteOpt) =
        quoteOpt o ++ ' ' :: '|' :: ' ' ::
          joinPipeSep ((o2 :: os').map quoteOpt) from rfl]
    have hsh : pre ++ (quoteOpt o ++ ' ' :: '|' :: ' ' ::
        joinPipeSep ((o2 :: os').map quoteOpt)) =
        (pre ++ (quoteOpt o ++ [' '])) ++ '|' ::
          (' ' :: joinPipeSep ((o2 :: os').map quoteOpt)) := by
      simp
    rw [hsh]
    have hx : ∀ c ∈ pre ++ (quoteOpt o ++ [' ']), c ≠ '|' := by
      intro c hc
      rcases List.mem_append.mp hc with hc | hc
      · exact hpp c hc
      · rcases List.mem_append.mp hc with hc | hc
        · simp only [quoteOpt] at hc
          rcases List.mem_cons.mp hc with hc | hc
          · rw [hc]; decide
          · rcases List.mem_append.mp hc with hc | hc
            · intro heq
              rw [heq] at hc
              exact (wellFormedOpt_spec hwf).2.2.2.2 hc
            · simp only [List.mem_singleton] at hc
              rw [hc]; decide
        · simp only [List.mem_singleton] at hc
          rw [hc]; decide
    rw [splitPipe_append_pipe hx]
    rw [show pre ++ (quoteOpt o ++ [' ']) = pre ++ (quoteOpt o ++ [' ']) from rfl,
      cleanOptions_cons_quoted hpw (by intro c hc; simp only [List.mem_singleton] at hc; rw [hc]; decide) hwf]
    rw [show (' ' :: joinPipeSep ((o2 :: os').map quoteOpt)) =
        [' '] ++ joinPipeSep ((o2 :: os').map quoteOpt) from rfl]
    rw [ih [' '] o2 (by intro c hc; simp only [List.mem_singleton] at hc; rw [hc]; decide)
      (by intro c hc; simp only [List.mem_singleton] at hc; rw [hc]; decide)
      (hos o2 (List.mem_cons_self o2 os'))
      (fun x hx => hos x (List.mem_cons_of_mem o2 hx))]

theorem joinPipeSep_quoted_cons (o : Str) (os : List Str) :
    ∃ z, joinPipeSep ((o :: os).map quoteOpt) = quoteOpt o ++ z := by
  cases os with
  | nil => exact ⟨[], by simp [joinPipeSep]⟩
  | cons o2 os' =>
    exact ⟨' ' :: '|' :: ' ' :: joinPipeSep ((o2 :: os').map quoteOpt), rfl⟩

theorem mem_joinPipeSep_quoted {c : Char} :
    ∀ {l : List Str}, c ∈ joinPipeSep (l.map quoteOpt) →
      c = '\'' ∨ c = ' ' ∨ c = '|' ∨ ∃ o ∈ l, c ∈ o := by
  intro l
  induction l with
  | nil => simp [joinPipeSep]
  | cons o rest ih =>
    intro hc
    cases rest with
    | nil =>
      simp only [List.map, joinPipeSep, quoteOpt] at hc
      rcases List.mem_cons.mp hc with hc | hc
      · exact Or.inl hc
      · rcases List.mem_append.mp hc with hc | hc
        · exact Or.inr (Or.inr (Or.inr ⟨o, List.mem_cons_self o [], hc⟩))
        · simp only [List.mem_singleton] at hc
          exact Or.inl hc
    | cons o2 rest' =>
      rw [show joinPipeSep ((o :: o2 :: rest').map quoteOpt) =
          quoteOpt o ++ ' ' :: '|' :: ' ' ::
            joinPipeSep ((o2 :: rest').map quoteOpt) from rfl] at hc
      rcases List.mem_append.mp hc with hc | hc
      · simp only [quoteOpt] at hc
        rcases List.mem_cons.mp hc with hc | hc
        · exact Or.inl hc
        · rcases List.mem_append.mp hc with hc | hc
          · exact Or.inr (Or.inr (Or.inr ⟨o, List.mem_cons_self o _, hc⟩))
          · simp only [List.mem_singleton] at hc
            exact Or.inl hc
      · rcases List.mem_cons.mp hc with hc | hc
        · exact Or.inr (Or.inl hc)
        · rcases List.mem_cons.mp hc with hc | hc
          · exact Or.inr (Or.inr (Or.inl hc))
          · rcases List.mem_cons.mp hc with hc | hc
            · exact Or.inr (Or.inl hc)
            · rcases ih hc with h | h | h | ⟨o', ho', hco'⟩
              · exact Or.inl h
              · exact Or.inr (Or.inl h)
              · exact Or.inr (Or.inr (Or.inl h))
              · exact Or.inr (Or.inr (Or.inr
                  ⟨o', List.mem_cons_of_mem o ho', hco'⟩))

theorem serializedInner_no_rb {o : Str} {os : List Str}
    (hwf : wellFormedOpt o = true) (hos : ∀ x ∈ os, wellFormedOpt x = true) :
    ∀ c ∈ joinPipeSep ((o :: os).map quoteOpt), c ≠ ']' := by
  intro c hc
  rcases mem_joinPipeSep_quoted hc with h | h | h | ⟨o', ho', hco'⟩
  · rw [h]; decide
  · rw [h]; decide
  · rw [h]; decide
  · intro heq
    rw [heq] at hco'
    rcases List.mem_cons.mp ho' with ho' | ho'
    · rw [ho'] at hco'
      exact (wellFormedOpt_spec hwf).2.2.2.1 hco'
    · exact (wellFormedOpt_spec (hos o' ho')).2.2.2.1 hco'

theorem serializedInner_ne_nil (o : Str) (os : List Str) :
    joinPipeSep ((o :: os).map quoteOpt) ≠ [] := by
  obtain ⟨z, hz⟩ := joinPipeSep_quoted_cons o os
  rw [hz]
  simp [quoteOpt]

theorem robust_serialized (o : Str) (os : List Str)
    (hwf : wellFormedOpt o = true) (hos : ∀ x ∈ os, wellFormedOpt x = true) :
    parseDropdownOptionsRobust (joinPipeSep ((o :: os).map quoteOpt)) = o :: os := by
  unfold parseDropdownOptionsRobust
  rw [if_neg]
  · rw [show joinPipeSep ((o :: os).map quoteOpt) =
        [] ++ joinPipeSep ((o :: os).map quoteOpt) from rfl]
    exact cleanOptions_split_serialized os [] o (by simp) (by simp) hwf hos
  · rintro (h | h)
    · exact serializedInner_ne_nil o os h
    · have hq : '\'' ∈ joinPipeSep ((o :: os).map quoteOpt) := by
        obtain ⟨z, hz⟩ := joinPipeSep_quoted_cons o os
        rw [hz]
        simp [quoteOpt]
      have := trim_eq_nil h '\'' hq
      simp [isWsChar] at this

theorem tryMatch_head_ne {c : Char} (h : c ≠ '[') (x : Str) :
    tryMatch (c :: x) = none := by
  cases x with
  | nil => rfl
  | cons b rest =>
    have hcond : ¬(c = '[' ∧ b = '[') := by
      rintro ⟨h1, -⟩
      exact h h1
    simp only [tryMatch, if_neg hcond]

theorem findToken_no_lb {s : Str} (h : ∀ c ∈ s, c ≠ '[') :
    findToken s = none := by
  induction s with
  | nil => rfl
  | cons c cs ih =>
    simp only [findToken, List.append_eq,
      tryMatch_head_ne (h c (List.mem_cons_self c cs)),
      ih (fun d hd => h d (List.mem_cons_of_mem c hd))]

theorem findToken_after_clean_text {t : Str} (inner rest : Str)
    (ht : ∀ c ∈ t, c ≠ '[') (hne : inner ≠ []) (hnb : ∀ c ∈ inner, c ≠ ']') :
    findToken (t ++ '[' :: '[' :: (inner ++ ']' :: ']' :: rest)) =
      some (t, inner, rest) := by
  induction t with
  | nil =>
    simp only [List.nil_append, findToken]
    rw [tryMatch_of_shape inner rest hne hnb]
  | cons c t' ih =>
    simp only [List.cons_append, findToken, List.append_eq,
      tryMatch_head_ne (ht c (List.mem_cons_self c t')),
      ih (fun d hd => ht d (List.mem_cons_of_mem c hd))]

theorem wellFormedSeg_text {j : Nat} {v : Str}
    (h : wellFormedSeg (.text j v) = true) : '[' ∉ v ∧ ']' ∉ v := by
  unfold wellFormedSeg at h
  simp only [Bool.and_eq_true, decide_eq_true_eq] at h
  exact h

theorem wellFormedSeg_drop {j : Nat} {opts : List Str} {sel : Str}
    (h : wellFormedSeg (.dropdown j opts sel) = true) :
    (∀ o ∈ opts, wellFormedOpt o = true) ∧ sel ∈ opts ∧
      customSentinel ∈ opts := by
  unfold wellFormedSeg at h
  simp only [Bool.and_eq_true, decide_eq_true_eq, List.all_eq_true] at h
  exact ⟨h.1.1.2, h.1.2, h.2⟩

theorem withCustom_mem {l : List Str} (h : customSentinel ∈ l) :
    withCustom l = l := by
  unfold withCustom
  rw [if_pos h]

/-- The shape of `parseTextToSegments (serialize segs)` predicted from
`segs` alone, up to generated ids: text runs merge, empty runs vanish,
and each dropdown re-parses with its selected option first. -/
def expectedParse : Str → List Segment → List SegData
  | t, [] => if t = [] then [] else [.text t]
  | t, .text _ v :: rest => expectedParse (t ++ v) rest
  | t, .dropdown _ opts sel :: rest =>
    (if t = [] then [] else [.text t]) ++
      .dropdown (sel :: opts.filter (fun o => o ≠ sel)) sel ::
        expectedParse [] rest

theorem stripIds_append (x y : List Segment) :
    stripIds (x ++ y) = stripIds x ++ stripIds y := by
  simp [stripIds]

theorem parse_serialize_strip :
    ∀ (segs : List Segment), wellFormedSegs segs = true →
      ∀ (t : Str) (n : Nat), (∀ c ∈ t, c ≠ '[') → (∀ c ∈ t, c ≠ ']') →
        stripIds (parseTextToSegments (t ++ segmentsToText segs) n).1 =
          expectedParse t segs := by
  intro segs
  induction segs with
  | nil =>
    intro _ t n htl htr
    rw [show segmentsToText [] = [] from rfl, List.append_nil]
    rw [parseTextToSegments_none (findToken_no_lb htl)]
    by_cases ht : t = []
    · simp [ht, expectedParse, stripIds]
    · rw [if_neg ht]
      simp [expectedParse, ht, stripIds]
  | cons seg rest ih =>
    intro hwf t n htl htr
    rw [show wellFormedSegs (seg :: rest) =
        (wellFormedSeg seg && wellFormedSegs rest) from by
      simp [wellFormedSegs], Bool.and_eq_true] at hwf
    obtain ⟨hwseg, hwrest⟩ := hwf
    cases seg with
    | text j v =>
      obtain ⟨hvl, hvr⟩ := wellFormedSeg_text hwseg
      rw [show segmentsToText (Segment.text j v :: rest) =
          v ++ segmentsToText rest from rfl]
      rw [← List.append_assoc]
      rw [show expectedParse t (Segment.text j v :: rest) =
          expectedParse (t ++ v) rest from rfl]
      apply ih hwrest (t ++ v) n
      · intro c hc
        rcases List.mem_append.mp hc with hc | hc
        · exact htl c hc
        · intro heq; rw [heq] at hc; exact hvl hc
      · intro c hc
        rcases List.mem_append.mp hc with hc | hc
        · exact htr c hc
        · intro heq; rw [heq] at hc; exact hvr hc
    | dropdown j opts sel =>
      obtain ⟨hall, hsel, hcust⟩ := wellFormedSeg_drop hwseg
      have hselwf : wellFormedOpt sel = true := hall sel hsel
      have hfwf : ∀ x ∈ opts.filter (fun o => o ≠ sel), wellFormedOpt x = true := by
        intro x hx
        exact hall x (List.mem_of_mem_filter hx)
      rw [show segmentsToText (Segment.dropdown j opts sel :: rest) =
          ('[' :: '[' ::
            (joinPipeSep ((sel :: opts.filter (fun o => o ≠ sel)).map quoteOpt) ++
              [']', ']'])) ++ segmentsToText rest from rfl]
      have hshape : t ++ (('[' :: '[' ::
          (joinPipeSep ((sel :: opts.filter (fun o => o ≠ sel)).map quoteOpt) ++
            [']', ']'])) ++ segmentsToText rest) =
          t ++ '[' :: '[' ::
            (joinPipeSep ((sel :: opts.filter (fun o => o ≠ sel)).map quoteOpt) ++
              ']' :: ']' :: segmentsToText rest) := by
        simp
      rw [hshape]
      rw [parseTextToSegments_some
        (findToken_after_clean_text _ _ htl
          (serializedInner_ne_nil sel (opts.filter (fun o => o ≠ sel)))
          (serializedInner_no_rb hselwf hfwf))]
      rw [robust_serialized sel (opts.filter (fun o => o ≠ sel)) hselwf hfwf]
      have hcustL : customSentinel ∈ sel :: opts.filter (fun o => o ≠ sel) := by
        by_cases hcs : customSentinel = sel
        · rw [hcs]; exact List.mem_cons_self _ _
        · apply List.mem_cons_of_mem
          apply List.mem_filter.mpr
          exact ⟨hcust, by simpa using hcs⟩
      rw [show (match sel :: opts.filter (fun o => o ≠ sel) with
          | [] => Segment.text (if t = [] then n else n + 1)
              ('[' :: '[' ::
                (joinPipeSep ((sel :: opts.filter (fun o => o ≠ sel)).map quoteOpt)
                  ++ [']', ']']))
          | o :: os => Segment.dropdown (if t = [] then n else n + 1)
              (withCustom (o :: os)) o) =
          Segment.dropdown (if t = [] then n else n + 1)
            (withCustom (sel :: opts.filter (fun o => o ≠ sel))) sel from rfl]
      rw [withCustom_mem hcustL]
      rw [stripIds_append]
      rw [show expectedParse t (Segment.dropdown j opts sel :: rest) =
          (if t = [] then [] else [SegData.text t]) ++
            SegData.dropdown (sel :: opts.filter (fun o => o ≠ sel)) sel ::
              expectedParse [] rest from rfl]
      congr 1
      · by_cases ht : t = []
        · simp [ht, stripIds]
        · simp [ht, stripIds]
      · rw [show stripIds (Segment.dropdown (if t = [] then n else n + 1)
            (sel :: opts.filter (fun o => o ≠ sel)) sel ::
              (parseTextToSegments (segmentsToText rest)
                ((if t = [] then n else n + 1) + 1)).1) =
            SegData.dropdown (sel :: opts.filter (fun o => o ≠ sel)) sel ::
              stripIds (parseTextToSegments (segmentsToText rest)
                ((if t = [] then n else n + 1) + 1)).1 from rfl]
        congr 1
        have := ih hwrest [] ((if t = [] then n else n + 1) + 1)
          (by simp) (by simp)
        simpa using this

theorem sameElems_sel_filter {opts : List Str} {sel : Str} (hsel : sel ∈ opts) :
    sameElems (sel :: opts.filter (fun o => o ≠ sel)) opts = true := by
  unfold sameElems
  rw [Bool.and_eq_true]
  constructor
  · rw [List.all_eq_true]
    intro x hx
    simp only [decide_eq_true_eq]
    rcases List.mem_cons.mp hx with hx | hx
    · rw [hx]; exact hsel
    · exact List.mem_of_mem_filter hx
  · rw [List.all_eq_true]
    intro x hx
    simp only [decide_eq_true_eq]
    by_cases hxs : x = sel
    · rw [hxs]; exact List.mem_cons_self _ _
    · exact List.mem_cons_of_mem _ (List.mem_filter.mpr ⟨hx, by simpa using hxs⟩)

theorem normAux_expected :
    ∀ (segs : List Segment), wellFormedSegs segs = true →
      ∀ (acc t : Str),
        (normAux acc (expectedParse t segs)).2 =
          (normAux (acc ++ t) (stripIds segs)).2 ∧
        runsEq (normAux acc (expectedParse t segs)).1
          (normAux (acc ++ t) (stripIds segs)).1 = true := by
  intro segs
  induction segs with
  | nil =>
    intro _ acc t
    by_cases ht : t = []
    · simp [ht, expectedParse, stripIds, normAux, runsEq]
    · simp [ht, expectedParse, stripIds, normAux, runsEq]
  | cons seg rest ih =>
    intro hwf acc t
    rw [show wellFormedSegs (seg :: rest) =
        (wellFormedSeg seg && wellFormedSegs rest) from by
      simp [wellFormedSegs], Bool.and_eq_true] at hwf
    obtain ⟨hwseg, hwrest⟩ := hwf
    cases seg with
    | text j v =>
      rw [show expectedParse t (Segment.text j v :: rest) =
          expectedParse (t ++ v) rest from rfl]
      rw [show stripIds (Segment.text j v :: rest) =
          SegData.text v :: stripIds rest from rfl]
      rw [show normAux (acc ++ t) (SegData.text v :: stripIds rest) =
          normAux ((acc ++ t) ++ v) (stripIds rest) from rfl]
      rw [List.append_assoc]
      exact ih hwrest acc (t ++ v)
    | dropdown j opts sel =>
      obtain ⟨-, hsel, -⟩ := wellFormedSeg_drop hwseg
      have hrest := ih hwrest [] []
      rw [show ([] : Str) ++ [] = [] from rfl] at hrest
      by_cases ht : t = []
      · subst ht
        rw [show expectedParse [] (Segment.dropdown j opts sel :: rest) =
            SegData.dropdown (sel :: opts.filter (fun o => o ≠ sel)) sel ::
              expectedParse [] rest from by simp [expectedParse]]
        rw [show stripIds (Segment.dropdown j opts sel :: rest) =
            SegData.dropdown opts sel :: stripIds rest from rfl]
        simp only [normAux, List.append_nil]
        constructor
        · exact hrest.1
        · simp only [runsEq, Bool.and_eq_true]
          refine ⟨⟨⟨by simp, sameElems_sel_filter hsel⟩, by simp⟩, hrest.2⟩
      · rw [show expectedParse t (Segment.dropdown j opts sel :: rest) =
            (if t = [] then [] else [SegData.text t]) ++
              SegData.dropdown (sel :: opts.filter (fun o => o ≠ sel)) sel ::
                expectedParse [] rest from rfl]
        rw [if_neg ht]
        rw [show ([SegData.text t] ++
            SegData.dropdown (sel :: opts.filter (fun o => o ≠ sel)) sel ::
              expectedParse [] rest) =
            SegData.text t ::
              SegData.dropdown (sel :: opts.filter (fun o => o ≠ sel)) sel ::
                expectedParse [] rest from rfl]
        rw [show stripIds (Segment.dropdown j opts sel :: rest) =
            SegData.dropdown opts sel :: stripIds rest from rfl]
        simp only [normAux]
        constructor
        · exact hrest.1
        · simp only [runsEq, Bool.and_eq_true]
          refine ⟨⟨⟨by simp, sameElems_sel_filter hsel⟩, by simp⟩, hrest.2⟩

/-- Serialization on the id-less view (mirror of `segmentsToText`). -/
def serializeData : List SegData → Str
  | [] => []
  | .text v :: rest => v ++ serializeData rest
  | .dropdown opts sel :: rest =>
    ('[' :: '[' ::
      (joinPipeSep ((sel :: opts.filter (fun o => o ≠ sel)).map quoteOpt) ++
        [']', ']'])) ++ serializeData rest

theorem segmentsToText_eq_serializeData (l : List Segment) :
    segmentsToText l = serializeData (stripIds l) := by
  induction l with
  | nil => rfl
  | cons seg rest ih =>
    cases seg with
    | text j v =>
      rw [show segmentsToText (Segment.text j v :: rest) =
          v ++ segmentsToText rest from rfl, ih]
      rfl
    | dropdown j opts sel =>
      rw [show segmentsToText (Segment.dropdown j opts sel :: rest) =
          ('[' :: '[' ::
            (joinPipeSep ((sel :: opts.filter (fun o => o ≠ sel)).map quoteOpt) ++
              [']', ']'])) ++ segmentsToText rest from rfl, ih]
      rfl

theorem serializeData_expected :
    ∀ (segs : List Segment) (t : Str),
      serializeData (expectedParse t segs) =
        t ++ serializeData (stripIds segs) := by
  intro segs
  induction segs with
  | nil =>
    intro t
    by_cases ht : t = []
    · simp [ht, expectedParse, stripIds, serializeData]
    · simp [ht, expectedParse, stripIds, serializeData]
  | cons seg rest ih =>
    intro t
    cases seg with
    | text j v =>
      rw [show expectedParse t (Segment.text j v :: rest) =
          expectedParse (t ++ v) rest from rfl, ih (t ++ v)]
      rw [show stripIds (Segment.text j v :: rest) =
          SegData.text v :: stripIds rest from rfl]
      rw [show serializeData (SegData.text v :: stripIds rest) =
          v ++ serializeData (stripIds rest) from rfl]
      simp [List.append_assoc]
    | dropdown j opts sel =>
      have hfilter : (sel :: opts.filter (fun o => o ≠ sel)).filter
          (fun o => o ≠ sel) = opts.filter (fun o => o ≠ sel) := by
        rw [List.filter_cons, if_neg (by simp), List.filter_filter]
        simp
      have hmid : serializeData
          (SegData.dropdown (sel :: opts.filter (fun o => o ≠ sel)) sel ::
            expectedParse [] rest) =
          ('[' :: '[' ::
            (joinPipeSep ((sel :: opts.filter (fun o => o ≠ sel)).map quoteOpt) ++
              [']', ']'])) ++ serializeData (stripIds rest) := by
        rw [show serializeData
            (SegData.dropdown (sel :: opts.filter (fun o => o ≠ sel)) sel ::
              expectedParse [] rest) =
            ('[' :: '[' ::
              (joinPipeSep ((sel :: (sel :: opts.filter (fun o => o ≠ sel)).filter
                  (fun o => o ≠ sel)).map quoteOpt) ++ [']', ']'])) ++
              serializeData (expectedParse [] rest) from rfl]
        rw [hfilter, ih []]
        simp
      rw [show expectedParse t (Segment.dropdown j opts sel :: rest) =
          (if t = [] then [] else [SegData.text t]) ++
            SegData.dropdown (sel :: opts.filter (fun o => o ≠ sel)) sel ::
              expectedParse [] rest from rfl]
      rw [show stripIds (Segment.dropdown j opts sel :: rest) =
          SegData.dropdown opts sel :: stripIds rest from rfl]
      rw [show serializeData (SegData.dropdown opts sel :: stripIds rest) =
          ('[' :: '[' ::
            (joinPipeSep ((sel :: opts.filter (fun o => o ≠ sel)).map quoteOpt) ++
              [']', ']'])) ++ serializeData (stripIds rest) from rfl]
      by_cases ht : t = []
      · rw [if_pos ht, List.nil_append, hmid, ht, List.nil_append]
      · rw [if_neg ht]
        rw [show ([SegData.text t] ++
            SegData.dropdown (sel :: opts.filter (fun o => o ≠ sel)) sel ::
              expectedParse [] rest) =
            SegData.text t ::
              SegData.dropdown (sel :: opts.filter (fun o => o ≠ sel)) sel ::
                expectedParse [] rest from rfl]
        rw [show serializeData (SegData.text t ::
            SegData.dropdown (sel :: opts.filter (fun o => o ≠ sel)) sel ::
              expectedParse [] rest) =
            t ++ serializeData
              (SegData.dropdown (sel :: opts.filter (fun o => o ≠ sel)) sel ::
                expectedParse [] rest) from rfl]
        rw [hmid]

/-- **C1.**  For well-formed segment sequences (no malformed tokens:
bracket-free text runs, non-empty trim-stable metacharacter-free
options, selected among the options and the `'custom...'` sentinel
present, per spec §3), `parseTextToSegments (segmentsToText segs)` is
selection-equivalent to `segs` — same selected value and option set per
dropdown, text runs unchanged — and serialization is a fixed point from
the second application onward:
`segmentsToText (parseTextToSegments (segmentsToText segs)) =
segmentsToText segs`. -/
theorem parse_serialize_roundtrip (segs : List Segment)
    (hwf : wellFormedSegs segs = true) :
    selEquiv (parseTextToSegments (segmentsToText segs) 0).1 segs = true ∧
    segmentsToText (parseTextToSegments (segmentsToText segs) 0).1 =
      segmentsToText segs := by
  have hstrip : stripIds (parseTextToSegments (segmentsToText segs) 0).1 =
      expectedParse [] segs := by
    have := parse_serialize_strip segs hwf [] 0 (by simp) (by simp)
    simpa using this
  constructor
  · unfold selEquiv
    rw [hstrip]
    have hn := normAux_expected segs hwf [] []
    rw [show ([] : Str) ++ [] = [] from rfl] at hn
    show ((normAux [] (expectedParse [] segs)).2 ==
        (normAux [] (stripIds segs)).2 &&
      runsEq (normAux [] (expectedParse [] segs)).1
        (normAux [] (stripIds segs)).1) = true
    rw [hn.1, hn.2]
    simp
  · rw [segmentsToText_eq_serializeData
      (parseTextToSegments (segmentsToText segs) 0).1]
    rw [hstrip, serializeData_expected segs [], List.nil_append]
    exact (segmentsToText_eq_serializeData segs).symm

theorem parse_serialize_roundtrip_witness :
    wellFormedSegs
      [Segment.text 10 "Pick ".toList,
       .dropdown 11 ["buy".toList, "sell".toList, customSentinel] "sell".toList,
       .text 12 " now".toList] = true ∧
    selEquiv
      (parseTextToSegments (segmentsToText
        [Segment.text 10 "Pick ".toList,
         .dropdown 11 ["buy".toList, "sell".toList, customSentinel] "sell".toList,
         .text 12 " now".toList]) 0).1
      [Segment.text 10 "Pick ".toList,
       .dropdown 11 ["buy".toList, "sell".toList, customSentinel] "sell".toList,
       .text 12 " now".toList] = true ∧
    segmentsToText
      (parseTextToSegments (segmentsToText
        [Segment.text 10 "Pick ".toList,
         .dropdown 11 ["buy".toList, "sell".toList, customSentinel] "sell".toList,
         .text 12 " now".toList]) 0).1 =
      segmentsToText
        [Segment.text 10 "Pick ".toList,
         .dropdown 11 ["buy".toList, "sell".toList, customSentinel] "sell".toList,
         .text 12 " now".toList] :=
  ⟨by decide,
   (parse_serialize_roundtrip _ (by decide)).1,
   (parse_serialize_roundtrip _ (by decide)).2⟩

end PromptEditor
